import Mathlib

/-
  Verification development for the embedded crypto core of this repository:
  a shallow embedding in Lean 4 of the Poly1305 engine (17 limbs, radix 2^8),
  the ChaCha20-Poly1305 AEAD composition, and the GHASH/GCM AEAD composition,
  translated from the C sources.  Bytes are Nat values < 256; uint32/uint64
  arithmetic is Nat with explicit `% 2^32` / `% 2^64` where overflow matters.
  External capabilities (the ChaCha20 keystream, the block cipher, the
  GF(2^128) multiplication backend, the counter-mode keystream generator)
  are parameters of the functions that consume them.
-/

/-- Little-endian radix-256 value of a limb/byte list (limb i weighs 256^i).
    Limbs may exceed 255 (they are uint32 in the source); the value is the
    plain polynomial evaluation at 256. -/
def lval (l : List Nat) : Nat :=
  l.foldr (fun a acc => a + 256 * acc) 0

/-- The n low-order base-256 digits of v, least significant first. -/
def digits : Nat → Nat → List Nat
  | 0, _ => []
  | n + 1, v => v % 256 :: digits n (v / 256)

/-- Big-endian value of a byte list (as cf_gf128_frombytes_be reads a block). -/
def beVal (l : List Nat) : Nat :=
  l.foldl (fun acc b => acc * 256 + b) 0

/-- Big-endian byte encoding, n bytes, of v's low 8n bits
    (as cf_gf128_tobytes_be / write32_be write out a value). -/
def beBytes (n v : Nat) : List Nat :=
  (digits n v).reverse

/-- Encode v as a 64-bit little-endian quantity (write64_le in the source). -/
def write64_le (v : Nat) : List Nat :=
  digits 8 (v % 2 ^ 64)

/-- Encode v as a 64-bit big-endian quantity (write64_be in the source). -/
def write64_be (v : Nat) : List Nat :=
  beBytes 8 (v % 2 ^ 64)

/-- Fuel-driven worker for `splitBlocks` (structural recursion so that the
    kernel can evaluate it). -/
def splitBlocksF : Nat → List Nat → List (List Nat) × List Nat
  | 0, l => ([], l)
  | fuel + 1, l =>
    if l.length < 16 then ([], l)
    else
      let p := splitBlocksF fuel (l.drop 16)
      (l.take 16 :: p.1, p.2)

/-- Modelled from the spec: the repository's cf_blockwise_accumulate
    utility (its source is not under src/).  Per the spec it converts a
    byte stream into 16-byte block callbacks, buffering any remainder
    (< 16 bytes) and never invoking a callback with a partial block:
    feeding `buffered ++ input` yields exactly the full 16-byte chunks in
    order, with the remainder left buffered.  `splitBlocks l` returns the
    list of complete 16-byte blocks of `l` together with the remainder. -/
def splitBlocks (l : List Nat) : List (List Nat) × List Nat :=
  splitBlocksF l.length l

/-- PADLEN(x) from the ChaCha20-Poly1305 source: bytes of zero padding
    needed to reach the next 16-byte boundary. -/
def PADLEN (x : Nat) : Nat :=
  (16 - (x &&& 0xf)) &&& 0xf

/-- mask_u32 from the source: 0xffffffff if x == y, 0 otherwise, branch-free,
    in uint32 arithmetic. -/
def mask_u32 (x y : Nat) : Nat :=
  let diff := (x ^^^ y) % 2 ^ 32
  let diff_is_zero := ((2 ^ 32 - 1) ^^^ diff) &&& ((diff + 2 ^ 32 - 1) % 2 ^ 32)
  (2 ^ 32 - diff_is_zero >>> 31) % 2 ^ 32

/-- mem_eq from the source: 1 if the first len bytes agree, 0 otherwise;
    the scan ORs the XOR of every byte pair over the full length (diff is a
    uint8 accumulator). -/
def mem_eq (a b : List Nat) (len : Nat) : Nat :=
  let diff := (List.range len).foldl
    (fun d i => (d ||| (a.getD i 0 ^^^ b.getD i 0)) &&& 0xff) 0
  if diff = 0 then 1 else 0

/-- xor_bb from the gcm source: out[i] = x[i] ^ y[i] for i < n. -/
def xor_bb (x y : List Nat) (n : Nat) : List Nat :=
  (List.range n).map (fun i => x.getD i 0 ^^^ y.getD i 0)

/- ---------------------------------------------------------------------
   Poly1305 engine (cf_poly1305 in the source).
   --------------------------------------------------------------------- -/

/-- cf_poly1305 context: accumulator h and clamped key r, 17 limbs in
    radix 2^8 each; 16-byte pad s; buffered partial block `pbuf`
    (the source's `partial` array together with `npartial = pbuf.length`). -/
structure cf_poly1305 where
  h : List Nat
  r : List Nat
  s : List Nat
  pbuf : List Nat
deriving Repr, DecidableEq

/-- cf_poly1305_init: clamp r (high nibble of bytes 3,7,11,15 cleared, low
    two bits of bytes 4,8,12 cleared), append zero limb 16, store s, zero
    the accumulator and the partial buffer. -/
def cf_poly1305_init (r s : List Nat) : cf_poly1305 :=
  { h := List.replicate 17 0
    r := [r.getD 0 0, r.getD 1 0, r.getD 2 0, r.getD 3 0 &&& 0x0f,
          r.getD 4 0 &&& 0xfc, r.getD 5 0, r.getD 6 0, r.getD 7 0 &&& 0x0f,
          r.getD 8 0 &&& 0xfc, r.getD 9 0, r.getD 10 0, r.getD 11 0 &&& 0x0f,
          r.getD 12 0 &&& 0xfc, r.getD 13 0, r.getD 14 0, r.getD 15 0 &&& 0x0f,
          0]
    s := s.take 16
    pbuf := [] }

/-- Carry chain of poly1305_add: limbwise uint32 additions, each limb masked
    to its low byte, carry shifted down 8 bits. -/
def poly1305_add_go : Nat → List Nat → List Nat → List Nat
  | _, [], _ => []
  | _, _ :: _, [] => []
  | c, a :: as, b :: bs =>
    let t := (c + a + b) % 2 ^ 32
    t % 256 :: poly1305_add_go (t / 256) as bs

/-- poly1305_add from the source (17-limb radix-2^8 addition with byte
    carries, in uint32 arithmetic). -/
def poly1305_add (h x : List Nat) : List Nat :=
  poly1305_add_go 0 h x

/-- Single-operand carry pass used twice inside poly1305_min_reduce
    (the i = 0..15 loops). -/
def carryPass : Nat → List Nat → List Nat × Nat
  | c, [] => ([], c)
  | c, a :: as =>
    let t := (c + a) % 2 ^ 32
    let p := carryPass (t / 256) as
    (t % 256 :: p.1, p.2)

/-- poly1305_min_reduce from the source: carry-propagate limbs 0..15, keep
    2 bits of the carry in the top limb, multiply the remaining carry bits
    by 5 and carry them back into the bottom. -/
def poly1305_min_reduce (x : List Nat) : List Nat :=
  let p1 := carryPass 0 (x.take 16)
  let c2 := (p1.2 + x.getD 16 0) % 2 ^ 32
  let new16 := c2 &&& 0x03
  let c3 := (5 * (c2 >>> 2)) % 2 ^ 32
  let p2 := carryPass c3 p1.1
  p2.1 ++ [(new16 + p2.2) % 2 ^ 32]

/-- The constant _negative_1305 from the source:
    minus (2^130 - 5) in twos complement over 17 byte limbs. -/
def negative_1305 : List Nat :=
  [0x05, 0, 0, 0, 0, 0, 0, 0, 0, 0, 0, 0, 0, 0, 0, 0, 0xfc]

/-- poly1305_full_reduce from the source: subtract 2^130 - 5 via
    poly1305_add of the twos-complement constant, read the sign from the
    top bit of the high limb, and constant-time select the reduced or the
    original limbs with mask_u32 masks. -/
def poly1305_full_reduce (x : List Nat) : List Nat :=
  let xsub := poly1305_add x negative_1305
  let negative_mask := mask_u32 (xsub.getD 16 0 &&& 0x80) 0x80
  let positive_mask := negative_mask ^^^ 0xffffffff
  List.zipWith (fun a b => (a &&& negative_mask) ||| (b &&& positive_mask)) x xsub

/-- One output column of the schoolbook multiply in poly1305_mul: terms
    x_j * y_(i-j) for j ≤ i plus the wrapped terms (5 << 6) * x_j * y_(i+17-j)
    for j > i, accumulated in uint32 arithmetic. -/
def poly1305_mul_col (x y : List Nat) (i : Nat) : Nat :=
  ((∑ j in Finset.range (i + 1), x.getD j 0 * y.getD (i - j) 0)
    + ∑ j in Finset.Ico (i + 1) 17, (5 <<< 6) * (x.getD j 0 * y.getD (i + 17 - j) 0)) % 2 ^ 32

/-- poly1305_mul from the source: 17 columns followed by a minimal
    reduction. -/
def poly1305_mul (x y : List Nat) : List Nat :=
  poly1305_min_reduce ((List.range 17).map (poly1305_mul_col x y))

/-- poly1305_block: add the 17-limb block into the accumulator, then
    multiply the accumulator by r. -/
def poly1305_block (ctx : cf_poly1305) (c : List Nat) : cf_poly1305 :=
  { ctx with h := poly1305_mul (poly1305_add ctx.h c) ctx.r }

/-- The 17-limb block built by poly1305_whole_block from a full 16-byte
    buffer: the 16 bytes, then the marker limb 1 at index 16. -/
def poly1305_whole_block_c (buf : List Nat) : List Nat :=
  (List.range 16).map (fun i => buf.getD i 0) ++ [1]

/-- poly1305_whole_block from the source. -/
def poly1305_whole_block (ctx : cf_poly1305) (buf : List Nat) : cf_poly1305 :=
  poly1305_block ctx (poly1305_whole_block_c buf)

/-- The 17-limb block built by poly1305_last_block from the n buffered
    bytes (n = npartial): the bytes, then the marker limb 1 at index n,
    zeros above. -/
def poly1305_last_block_c (pb : List Nat) : List Nat :=
  (List.range 17).map
    (fun i => if i < pb.length then pb.getD i 0 else if i = pb.length then 1 else 0)

/-- poly1305_last_block from the source. -/
def poly1305_last_block (ctx : cf_poly1305) : cf_poly1305 :=
  poly1305_block ctx (poly1305_last_block_c ctx.pbuf)

/-- cf_poly1305_update: stream bytes through the blockwise accumulator,
    invoking poly1305_whole_block once per complete 16-byte block and
    buffering the remainder. -/
def cf_poly1305_update (ctx : cf_poly1305) (buf : List Nat) : cf_poly1305 :=
  let p := splitBlocks (ctx.pbuf ++ buf)
  { (p.1.foldl poly1305_whole_block ctx) with pbuf := p.2 }

/-- cf_poly1305_finish: absorb any pending partial block, fully reduce the
    accumulator, add the pad s (as 17 limbs with top limb 0), and emit
    limbs 0..15 as the 16-byte tag.  (The source then wipes the context;
    the returned context is discarded here.) -/
def cf_poly1305_finish (ctx : cf_poly1305) : List Nat :=
  let ctx1 := if ctx.pbuf = [] then ctx else poly1305_last_block ctx
  let s17 := ctx1.s.take 16 ++ [0]
  (poly1305_add (poly1305_full_reduce ctx1.h) s17).take 16

/-- The Poly1305 modulus 2^130 - 5. -/
def p1305 : Nat := 2 ^ 130 - 5

/- ---------------------------------------------------------------------
   ChaCha20-Poly1305 AEAD composition (process in the source).
   The ChaCha20 keystream generator is an external collaborator; it is
   modelled as a byte function ks : Nat -> Nat giving the keystream byte at
   each offset for the key and the 4-byte-zero-counter ++ 12-byte-nonce
   layout that process sets up.  cf_chacha20_cipher XORs consecutive
   keystream bytes into the data, advancing the stream offset.
   --------------------------------------------------------------------- -/

/-- Modelled from the spec: the external ChaCha20 cipher call
    cf_chacha20_cipher at stream offset `off`, i.e. out[i] = input[i] XOR
    ks(off + i).  (The stream-cipher keystream generator itself is out of
    scope; `ks` stands for its output for the given key and nonce.) -/
def chachaXor (ks : Nat → Nat) (off : Nat) (input : List Nat) : List Nat :=
  (List.range input.length).map (fun i => input.getD i 0 ^^^ ks (off + i))

def ENCRYPT : Nat := 1
def DECRYPT : Nat := 0
def SUCCESS : Nat := 0
def FAILURE : Nat := 1

/-- The Poly1305 context of process after the whole MAC input has been fed,
    built exactly as the source does: poly key from keystream bytes 0..31,
    then AAD, AAD padding, ciphertext (ENCRYPT uses the just-computed
    ciphertext, DECRYPT the received input), ciphertext padding, and the two
    64-bit little-endian lengths. -/
def process_mac (ks : Nat → Nat) (header input : List Nat) (mode : Nat) : cf_poly1305 :=
  let polykey := chachaXor ks 0 (List.replicate 32 0)
  let poly0 := cf_poly1305_init (polykey.take 16) (polykey.drop 16)
  let padbuf : List Nat := List.replicate 16 0
  let poly1 := cf_poly1305_update poly0 header
  let poly2 := cf_poly1305_update poly1 (padbuf.take (PADLEN header.length))
  let poly3 :=
    if mode = ENCRYPT then cf_poly1305_update poly2 (chachaXor ks 64 input)
    else cf_poly1305_update poly2 input
  let poly4 := cf_poly1305_update poly3 (padbuf.take (PADLEN input.length))
  cf_poly1305_update poly4 (write64_le header.length ++ write64_le input.length)

/-- process from the source.  Keystream bytes 0..31 become the one-time
    Poly1305 key, bytes 32..63 are discarded, payload encryption starts at
    keystream offset 64.  Returns (result code, output buffer, tag buffer).
    In DECRYPT mode the output buffer is the decrypted payload on tag match
    and is wiped to zero on mismatch (mem_clean in the source); the tag
    buffer is returned unchanged. -/
def process (ks : Nat → Nat) (header input : List Nat) (mode : Nat) (tag : List Nat) :
    Nat × List Nat × List Nat :=
  let poly5 := process_mac ks header input mode
  if mode = ENCRYPT then
    (SUCCESS, chachaXor ks 64 input, cf_poly1305_finish poly5)
  else
    let checktag := cf_poly1305_finish poly5
    if mem_eq checktag tag 16 = 1 then
      (SUCCESS, chachaXor ks 64 input, tag)
    else
      (FAILURE, List.replicate input.length 0, tag)

/-- cf_chacha20poly1305_encrypt: returns (ciphertext, tag). -/
def cf_chacha20poly1305_encrypt (ks : Nat → Nat) (header plain : List Nat) :
    List Nat × List Nat :=
  let p := process ks header plain ENCRYPT (List.replicate 16 0)
  (p.2.1, p.2.2)

/-- cf_chacha20poly1305_decrypt: returns (error code, plaintext buffer). -/
def cf_chacha20poly1305_decrypt (ks : Nat → Nat) (header cipher tag : List Nat) :
    Nat × List Nat :=
  let p := process ks header cipher DECRYPT tag
  (p.1, p.2.1)

/- ---------------------------------------------------------------------
   GHASH / GCM (gcm.c in the source).
   GF(2^128) elements are the big-endian values of 16-byte blocks
   (cf_gf128_frombytes_be / tobytes_be); cf_gf128_add is XOR.  The
   GF(2^128) multiplication backend (cf_gf128_mul / cf_gf128_mul_fast,
   selected once via the pclmulqdq capability query) is external to src/
   and is carried as the context's gf128_mul function, exactly as the C
   context stores the selected function pointer.
   --------------------------------------------------------------------- -/

def STATE_INVALID : Nat := 0
def STATE_AAD : Nat := 1
def STATE_CIPHER : Nat := 2

/-- ghash_ctx from the source: subkey H, accumulator Y (as GF(2^128)
    values), the ≤16-byte partial buffer, the two running uint64 byte
    counts, the phase flag, and the selected multiplication backend. -/
structure ghash_ctx where
  H : Nat
  Y : Nat
  buffer : List Nat
  len_aad : Nat
  len_cipher : Nat
  state : Nat
  gf128_mul : Nat → Nat → Nat

/-- ghash_init: zero everything, load H from bytes (big-endian), enter the
    AAD phase, select the multiplication backend (`fmul` stands for the
    implementation the capability query picked). -/
def ghash_init (fmul : Nat → Nat → Nat) (Hbytes : List Nat) : ghash_ctx :=
  { H := beVal (Hbytes.take 16), Y := 0, buffer := [], len_aad := 0,
    len_cipher := 0, state := STATE_AAD, gf128_mul := fmul }

/-- ghash_block: Y := (frombytes(data) + Y) * H in GF(2^128)
    (addition is XOR). -/
def ghash_block (ctx : ghash_ctx) (data : List Nat) : ghash_ctx :=
  { ctx with Y := ctx.gf128_mul (beVal (data.take 16) ^^^ ctx.Y) ctx.H }

/-- ghash_add: stream bytes through the blockwise accumulator into
    ghash_block, buffering the remainder. -/
def ghash_add (ctx : ghash_ctx) (buf : List Nat) : ghash_ctx :=
  let p := splitBlocks (ctx.buffer ++ buf)
  { (p.1.foldl ghash_block ctx) with buffer := p.2 }

/-- ghash_add_pad: if bytes are buffered, zero-fill them to a block and
    hash that block. -/
def ghash_add_pad (ctx : ghash_ctx) : ghash_ctx :=
  if ctx.buffer = [] then ctx
  else
    { ghash_block ctx (ctx.buffer ++ List.replicate (16 - ctx.buffer.length) 0) with
        buffer := [] }

/-- ghash_add_aad: only legal in the AAD phase (the source asserts
    state == STATE_AAD; `none` models the assertion firing).  Counts the
    bytes and hashes them. -/
def ghash_add_aad (ctx : ghash_ctx) (buf : List Nat) : Option ghash_ctx :=
  if ctx.state = STATE_AAD then
    some (ghash_add { ctx with len_aad := (ctx.len_aad + buf.length) % 2 ^ 64 } buf)
  else none

/-- ghash_add_cipher: on the first ciphertext bytes, pad the buffered AAD
    to a block boundary and move to the CIPHER phase; thereafter the source
    asserts state == STATE_CIPHER (`none` models the assertion firing on an
    INVALID context).  Counts the bytes and hashes them. -/
def ghash_add_cipher (ctx : ghash_ctx) (buf : List Nat) : Option ghash_ctx :=
  let c1 :=
    if ctx.state = STATE_AAD then { ghash_add_pad ctx with state := STATE_CIPHER }
    else ctx
  if c1.state = STATE_CIPHER then
    some (ghash_add { c1 with len_cipher := (c1.len_cipher + buf.length) % 2 ^ 64 } buf)
  else none

/-- ghash_final: pad any trailing block and move to INVALID, hash the
    8-byte big-endian bit lengths of the AAD and of the ciphertext (one
    final block), and emit Y big-endian.  The source asserts that no bytes
    remain buffered at the end (`none` models that assertion firing). -/
def ghash_final (ctx : ghash_ctx) : Option (List Nat × ghash_ctx) :=
  let c1 :=
    if ctx.state = STATE_AAD ∨ ctx.state = STATE_CIPHER then
      { ghash_add_pad ctx with state := STATE_INVALID }
    else ctx
  let c2 := ghash_add c1 (write64_be (c1.len_aad * 8))
  let c3 := ghash_add c2 (write64_be (c2.len_cipher * 8))
  if c3.buffer = [] then some (beBytes 16 c3.Y, c3) else none

/- ---------------------------------------------------------------------
   Counter mode and GCM composition.
   --------------------------------------------------------------------- -/

/-- Modelled from the spec: one counter block of the external counter-mode
    keystream generator (cf_ctr with cf_ctr_custom_counter(12, 4)): a fixed
    12-byte prefix and a 4-byte big-endian counter incremented mod 2^32. -/
def ctr_block (Y0 : List Nat) (i : Nat) : List Nat :=
  Y0.take 12 ++ beBytes 4 ((beVal (Y0.drop 12) + i) % 2 ^ 32)

/-- Modelled from the spec: byte `off` of the counter-mode keystream for
    block cipher E and initial counter block Y0 (block off/16, byte off%16,
    blocks counted from 0). -/
def ctr_ks (E : List Nat → List Nat) (Y0 : List Nat) (off : Nat) : Nat :=
  (E (ctr_block Y0 (off / 16))).getD (off % 16) 0

/-- Modelled from the spec: cf_ctr_cipher starting at stream offset `off`:
    out[i] = input[i] XOR keystream(off + i). -/
def cf_ctr_cipher (E : List Nat → List Nat) (Y0 : List Nat) (off : Nat)
    (input : List Nat) : List Nat :=
  (List.range input.length).map (fun i => input.getD i 0 ^^^ ctr_ks E Y0 (off + i))

/-- The Y0 derivation shared verbatim by cf_gcm_encrypt and cf_gcm_decrypt:
    a 12-byte nonce gets the fixed suffix 00 00 00 01; any other length is
    hashed through a fresh GHASH context as ciphertext-phase input. -/
def gcm_Y0 (fmul : Nat → Nat → Nat) (Hbytes nonce : List Nat) : Option (List Nat) :=
  if nonce.length = 12 then some (nonce ++ [0x00, 0x00, 0x00, 0x01])
  else do
    let gh := ghash_init fmul Hbytes
    let gh ← ghash_add_cipher gh nonce
    let p ← ghash_final gh
    pure p.1

/-- cf_gcm_encrypt from the source, for an abstract one-block encryption
    capability E (prp->encrypt) and GF(2^128) multiplication backend fmul.
    H = E(0^128); e_Y0 is counter-keystream block zero (obtained by
    ciphering 16 zero bytes); the payload consumes keystream from block 1;
    the AAD and then the ciphertext are hashed; the GHASH output is XORed
    with e_Y0 and truncated to ntag bytes (the source asserts
    1 < ntag <= 16).  Returns (ciphertext, tag). -/
def cf_gcm_encrypt (E : List Nat → List Nat) (fmul : Nat → Nat → Nat)
    (plain header nonce : List Nat) (ntag : Nat) : Option (List Nat × List Nat) := do
  let H := E (List.replicate 16 0)
  let Y0 ← gcm_Y0 fmul H nonce
  let gh := ghash_init fmul H
  let gh ← ghash_add_aad gh header
  let e_Y0 := cf_ctr_cipher E Y0 0 (List.replicate 16 0)
  let cipher := cf_ctr_cipher E Y0 16 plain
  let gh ← ghash_add_cipher gh cipher
  let p ← ghash_final gh
  if 1 < ntag ∧ ntag ≤ 16 then
    pure (cipher, xor_bb p.1 e_Y0 ntag)
  else none

/-- cf_gcm_decrypt from the source: same H, Y0, AAD hashing and e_Y0; the
    received (still encrypted) ciphertext is hashed; the masked, truncated
    tag is compared with mem_eq; only on a match is the counter-mode
    keystream applied to produce the plaintext (none = the error return,
    with the caller's plaintext buffer never written). -/
def cf_gcm_decrypt (E : List Nat → List Nat) (fmul : Nat → Nat → Nat)
    (cipher header nonce tag : List Nat) (ntag : Nat) : Option (List Nat) := do
  let H := E (List.replicate 16 0)
  let Y0 ← gcm_Y0 fmul H nonce
  let gh := ghash_init fmul H
  let gh ← ghash_add_aad gh header
  let e_Y0 := cf_ctr_cipher E Y0 0 (List.replicate 16 0)
  let gh ← ghash_add_cipher gh cipher
  let p ← ghash_final gh
  if 1 < ntag ∧ ntag ≤ 16 then
    let full_tag := xor_bb p.1 e_Y0 ntag
    if mem_eq full_tag tag ntag = 1 then
      pure (cf_ctr_cipher E Y0 16 cipher)
    else none
  else none

/- ---------------------------------------------------------------------
   Specification-side combinators used to state the claims:
   GHASH as a fold over explicit 16-byte blocks, and the padded MAC
   transcripts of the two AEAD constructions.
   --------------------------------------------------------------------- -/

/-- GHASH over an explicit list of blocks: Y := (Y + block) * H folded
    left to right. -/
def ghash_blocks (fmul : Nat → Nat → Nat) (H : Nat) (Y : Nat)
    (blocks : List (List Nat)) : Nat :=
  blocks.foldl (fun y b => fmul (beVal (b.take 16) ^^^ y) H) Y

/-- Zero-pad a byte string to the next 16-byte boundary. -/
def pad16 (l : List Nat) : List Nat :=
  l ++ List.replicate (PADLEN l.length) 0

/-- The GHASH value that GCM computes for associated data `aad` and
    ciphertext `cipher`: blocks of the padded aad, then blocks of the
    padded ciphertext, then the block holding the two 8-byte big-endian
    bit lengths. -/
def gcm_ghash_val (fmul : Nat → Nat → Nat) (Hbytes aad cipher : List Nat) : Nat :=
  ghash_blocks fmul (beVal (Hbytes.take 16)) 0
    ((splitBlocks (pad16 aad)).1 ++ (splitBlocks (pad16 cipher)).1
      ++ [write64_be (aad.length * 8) ++ write64_be (cipher.length * 8)])

/-- The full Poly1305 MAC transcript of the ChaCha20-Poly1305 construction:
    AAD, zero padding to a block boundary, ciphertext, zero padding to a
    block boundary, then the two 8-byte little-endian byte lengths. -/
def chachapoly_transcript (header cipher : List Nat) : List Nat :=
  header ++ List.replicate (PADLEN header.length) 0
    ++ cipher ++ List.replicate (PADLEN cipher.length) 0
    ++ write64_le header.length ++ write64_le cipher.length

/- ---------------------------------------------------------------------
   Toolkit: digits / lval.
   --------------------------------------------------------------------- -/

theorem lval_nil : lval [] = 0 := rfl

theorem lval_cons (a : Nat) (l : List Nat) : lval (a :: l) = a + 256 * lval l := rfl

theorem length_digits (n v : Nat) : (digits n v).length = n := by
  induction n generalizing v with
  | zero => rfl
  | succ n ih => simp [digits, ih]

theorem lval_digits (n v : Nat) : lval (digits n v) = v % 256 ^ n := by
  induction n generalizing v with
  | zero => simp [digits, lval_nil, Nat.mod_one]
  | succ n ih =>
      rw [digits, lval_cons, ih]
      rw [pow_succ, mul_comm (256 ^ n) 256, Nat.mod_mul]

theorem digits_le (n v : Nat) : ∀ a ∈ digits n v, a ≤ 255 := by
  induction n generalizing v with
  | zero => simp [digits]
  | succ n ih =>
      intro a ha
      rw [digits] at ha
      rcases List.mem_cons.mp ha with h | h
      · subst h; exact Nat.le_of_lt_succ (Nat.mod_lt v (by norm_num))
      · exact ih _ a h

theorem digits_mod (n v : Nat) : digits n (v % 256 ^ n) = digits n v := by
  induction n generalizing v with
  | zero => rfl
  | succ n ih =>
      rw [digits, digits]
      congr 1
      · rw [Nat.mod_mod_of_dvd v (by exact ⟨256 ^ n, by rw [pow_succ]; ring⟩)]
      · rw [pow_succ, mul_comm (256 ^ n) 256, Nat.mod_mul_right_div_self, ih]

theorem take_digits (n m v : Nat) : (digits (n + m) v).take n = digits n v := by
  induction n generalizing v with
  | zero => simp [digits]
  | succ n ih =>
      rw [Nat.succ_add, digits, digits, List.take_succ_cons, ih]

theorem getD_digits (n v i : Nat) (h : i < n) :
    (digits n v).getD i 0 = v / 256 ^ i % 256 := by
  induction n generalizing v i with
  | zero => omega
  | succ n ih =>
      cases i with
      | zero => simp [digits]
      | succ i =>
          rw [digits, List.getD_cons_succ, ih _ _ (by omega), Nat.div_div_eq_div_mul]
          ring_nf

theorem lval_append (a b : List Nat) :
    lval (a ++ b) = lval a + 256 ^ a.length * lval b := by
  induction a with
  | nil => simp [lval_nil]
  | cons x xs ih =>
      rw [List.cons_append, lval_cons, lval_cons, ih, List.length_cons]
      ring

theorem lval_replicate_zero (n : Nat) : lval (List.replicate n 0) = 0 := by
  induction n with
  | zero => rfl
  | succ n ih => rw [List.replicate_succ, lval_cons, ih]

theorem lval_le_of_le (l : List Nat) (B : Nat) (hB : ∀ a ∈ l, a ≤ B) :
    255 * lval l ≤ B * (256 ^ l.length - 1) := by
  induction l with
  | nil => simp [lval_nil]
  | cons a as ih =>
      have ha : a ≤ B := hB a (List.mem_cons_self a as)
      have has : 255 * lval as ≤ B * (256 ^ as.length - 1) :=
        ih (fun x hx => hB x (List.mem_cons_of_mem a hx))
      rw [lval_cons, List.length_cons]
      have h1 : (1 : Nat) ≤ 256 ^ as.length := Nat.one_le_pow _ _ (by norm_num)
      calc 255 * (a + 256 * lval as) = 255 * a + 256 * (255 * lval as) := by ring
        _ ≤ 255 * B + 256 * (B * (256 ^ as.length - 1)) := by
              have := Nat.mul_le_mul_left 255 ha
              have := Nat.mul_le_mul_left 256 has
              omega
        _ ≤ B * (256 ^ (as.length + 1) - 1) := by
              have : 256 * (B * (256 ^ as.length - 1)) = B * (256 ^ (as.length + 1) - 256) := by
                have : 256 * (256 ^ as.length - 1) = 256 ^ (as.length + 1) - 256 := by
                  rw [pow_succ, mul_comm (256 ^ as.length) 256, Nat.mul_sub]
                rw [mul_comm 256 (B * _), mul_assoc, mul_comm (256 ^ as.length - 1) 256, this]
              rw [this]
              have h2 : (256 : Nat) ^ (as.length + 1) ≥ 256 := by
                calc (256 : Nat) ^ (as.length + 1) = 256 ^ as.length * 256 := by rw [pow_succ]
                  _ ≥ 1 * 256 := Nat.mul_le_mul_right 256 h1
                  _ = 256 := by ring
              have := Nat.mul_le_mul_left B h2
              rw [Nat.mul_sub, Nat.mul_sub]
              omega

theorem lval_lt_of_bytes (l : List Nat) (h : ∀ a ∈ l, a ≤ 255) :
    lval l < 256 ^ l.length := by
  have := lval_le_of_le l 255 h
  have h1 : (1 : Nat) ≤ 256 ^ l.length := Nat.one_le_pow _ _ (by norm_num)
  omega

theorem lval_le_of_le_weak (l : List Nat) (B : Nat) (hB : ∀ a ∈ l, a ≤ B) :
    lval l ≤ B * 256 ^ l.length := by
  have h := lval_le_of_le l B hB
  have h2 : B * (256 ^ l.length - 1) ≤ B * 256 ^ l.length :=
    Nat.mul_le_mul_left B (Nat.sub_le _ _)
  omega

/- ---------------------------------------------------------------------
   Toolkit: the carry chains compute base-256 digits (no uint32 overflow
   under the stated bounds).
   --------------------------------------------------------------------- -/

theorem poly1305_add_go_spec (a b : List Nat) (c : Nat)
    (hlen : a.length = b.length)
    (ha : ∀ x ∈ a, x ≤ 255) (hb : ∀ x ∈ b, x ≤ 255) (hc : c ≤ 255) :
    poly1305_add_go c a b = digits a.length (c + lval a + lval b) := by
  induction a generalizing b c with
  | nil => cases b <;> simp_all [poly1305_add_go, digits]
  | cons x xs ih =>
      cases b with
      | nil => simp at hlen
      | cons y ys =>
          have hx : x ≤ 255 := ha x (List.mem_cons_self x xs)
          have hy : y ≤ 255 := hb y (List.mem_cons_self y ys)
          have hno : c + x + y < 2 ^ 32 := by omega
          rw [poly1305_add_go]
          simp only [Nat.mod_eq_of_lt hno]
          rw [List.length_cons, digits]
          have hsum : c + lval (x :: xs) + lval (y :: ys)
              = (c + x + y) + 256 * (lval xs + lval ys) := by
            rw [lval_cons, lval_cons]; ring
          congr 1
          · omega
          · rw [ih ys ((c + x + y) / 256) (by simpa using hlen)
                (fun z hz => ha z (List.mem_cons_of_mem x hz))
                (fun z hz => hb z (List.mem_cons_of_mem y hz))
                (by omega)]
            congr 1
            omega

theorem carryPass_spec (l : List Nat) (c : Nat)
    (hl : ∀ x ∈ l, x ≤ 2 ^ 31 - 1) (hc : c ≤ 2 ^ 31 - 1) :
    carryPass c l = (digits l.length (c + lval l), (c + lval l) / 256 ^ l.length) := by
  induction l generalizing c with
  | nil => simp [carryPass, digits, lval_nil]
  | cons x xs ih =>
      have hx : x ≤ 2 ^ 31 - 1 := hl x (List.mem_cons_self x xs)
      have hno : c + x < 2 ^ 32 := by omega
      rw [carryPass]
      simp only [Nat.mod_eq_of_lt hno]
      rw [ih ((c + x) / 256) (fun z hz => hl z (List.mem_cons_of_mem x hz)) (by omega)]
      rw [List.length_cons, digits, lval_cons]
      refine congrArg₂ Prod.mk (congrArg₂ List.cons (by omega) (congrArg (digits xs.length) (by omega))) ?_
      rw [pow_succ, mul_comm (256 ^ xs.length) 256, ← Nat.div_div_eq_div_mul]
      have h : c + (x + 256 * lval xs) = (c + x) + 256 * lval xs := by ring
      rw [h, Nat.add_mul_div_left (c + x) (lval xs) (by norm_num)]

/- ---------------------------------------------------------------------
   Toolkit: small list facts.
   --------------------------------------------------------------------- -/

theorem getD_append_length (l : List Nat) (a : Nat) :
    (l ++ [a]).getD l.length 0 = a := by
  rw [List.getD_eq_getElem _ 0 (by simp)]
  rw [List.getElem_append_right (Nat.le_refl _)]
  simp

theorem list17_decomp (x : List Nat) (h : x.length = 17) :
    x = x.take 16 ++ [x.getD 16 0] := by
  have h1 : (x.drop 16).length = 1 := by simp [h]
  obtain ⟨a, ha⟩ := List.length_eq_one.mp h1
  have hx : x = x.take 16 ++ [a] := by rw [← ha, List.take_append_drop]
  have hlen : (x.take 16).length = 16 := by simp [h]
  have hgd : x.getD 16 0 = a := by
    conv_lhs => rw [hx]
    have := getD_append_length (x.take 16) a
    rwa [hlen] at this
  rw [hgd]
  exact hx

theorem lval17_decomp (x : List Nat) (h : x.length = 17) :
    lval x = lval (x.take 16) + 256 ^ 16 * x.getD 16 0 := by
  conv_lhs => rw [list17_decomp x h]
  rw [lval_append]
  have hlen : (x.take 16).length = 16 := by simp [h]
  rw [hlen, lval_cons, lval_nil]
  ring

theorem getD_mem_or (l : List Nat) (i : Nat) (d : Nat) :
    l.getD i d ∈ l ∨ l.getD i d = d := by
  by_cases h : i < l.length
  · left
    rw [List.getD_eq_getElem _ d h]
    exact List.getElem_mem h
  · right
    exact List.getD_eq_default l d (by omega)

/- ---------------------------------------------------------------------
   poly1305_min_reduce: digit bounds and value preservation mod 2^130 - 5.
   --------------------------------------------------------------------- -/

theorem poly1305_min_reduce_spec (x : List Nat) (hlen : x.length = 17)
    (hb : ∀ a ∈ x, a ≤ 2 ^ 29) :
    (poly1305_min_reduce x).length = 17 ∧
    (∀ a ∈ (poly1305_min_reduce x).take 16, a ≤ 255) ∧
    (poly1305_min_reduce x).getD 16 0 ≤ 4 ∧
    ∃ k, lval x = lval (poly1305_min_reduce x) + p1305 * k := by
  have ht16 : (x.take 16).length = 16 := by simp [hlen]
  have hbt : ∀ a ∈ x.take 16, a ≤ 2 ^ 31 - 1 := by
    intro a ha
    have := hb a (List.mem_of_mem_take ha)
    omega
  have hx16 : x.getD 16 0 ≤ 2 ^ 29 := by
    rcases getD_mem_or x 16 0 with h | h
    · exact hb _ h
    · omega
  have hp1 := carryPass_spec (x.take 16) 0 hbt (by omega)
  rw [ht16] at hp1
  set vlo := lval (x.take 16) with hvlo
  -- bound the first-pass carry out
  have hvlo_le : vlo ≤ 2 ^ 29 * 256 ^ 16 := by
    have := lval_le_of_le_weak (x.take 16) (2 ^ 29)
      (fun a ha => hb a (List.mem_of_mem_take ha))
    rwa [ht16] at this
  have hc1 : (0 + vlo) / 256 ^ 16 ≤ 2 ^ 29 := by
    rw [Nat.zero_add]
    exact Nat.div_le_of_le_mul (by rw [mul_comm]; exact hvlo_le)
  have hc2nowrap : (0 + vlo) / 256 ^ 16 + x.getD 16 0 < 2 ^ 32 := by omega
  -- unfold the definition
  rw [poly1305_min_reduce, hp1]
  simp only [Nat.zero_add] at *
  set c1 := vlo / 256 ^ 16 with hc1def
  set c2raw := c1 + x.getD 16 0 with hc2def
  have hmod2 : c2raw % 2 ^ 32 = c2raw := Nat.mod_eq_of_lt (by omega)
  rw [hmod2]
  have hand3 : c2raw &&& 0x03 = c2raw % 4 := by
    have := Nat.and_pow_two_sub_one_eq_mod c2raw 2
    norm_num at this
    exact this
  have hshift : c2raw >>> 2 = c2raw / 4 := by
    rw [Nat.shiftRight_eq_div_pow]
  rw [hand3, hshift]
  have hc3nowrap : 5 * (c2raw / 4) < 2 ^ 32 := by omega
  rw [Nat.mod_eq_of_lt hc3nowrap]
  have hc3bound : 5 * (c2raw / 4) ≤ 2 ^ 31 - 1 := by omega
  have hp2 := carryPass_spec (digits 16 vlo) (5 * (c2raw / 4))
    (fun a ha => by have := digits_le 16 vlo a ha; omega) hc3bound
  rw [length_digits] at hp2
  rw [hp2]
  set S2 := 5 * (c2raw / 4) + lval (digits 16 vlo) with hS2def
  have hldig : lval (digits 16 vlo) = vlo % 256 ^ 16 := lval_digits 16 vlo
  have hS2lt : S2 < 2 * 256 ^ 16 := by
    have hm : vlo % 256 ^ 16 < 256 ^ 16 := Nat.mod_lt _ (by positivity)
    omega
  have hc4 : S2 / 256 ^ 16 ≤ 1 := by
    have := (Nat.div_lt_iff_lt_mul (show 0 < (256 : Nat) ^ 16 by positivity)).mpr
      (by omega : S2 < 2 * 256 ^ 16)
    omega
  have hlimb16 : c2raw % 4 + S2 / 256 ^ 16 ≤ 4 := by
    have : c2raw % 4 ≤ 3 := by omega
    omega
  have hlimb16mod : (c2raw % 4 + S2 / 256 ^ 16) % 2 ^ 32 = c2raw % 4 + S2 / 256 ^ 16 :=
    Nat.mod_eq_of_lt (by omega)
  rw [hlimb16mod]
  refine ⟨by simp [length_digits], ?_, ?_, ⟨c2raw / 4, ?_⟩⟩
  · intro a ha
    have h16 : (digits 16 S2).length = 16 := length_digits 16 S2
    have : (digits 16 S2 ++ [c2raw % 4 + S2 / 256 ^ 16]).take 16 = digits 16 S2 := by
      conv_lhs => rw [← h16]
      exact List.take_left _ _
    rw [this] at ha
    exact digits_le 16 S2 a ha
  · have h16 : (digits 16 S2).length = 16 := length_digits 16 S2
    have := getD_append_length (digits 16 S2) (c2raw % 4 + S2 / 256 ^ 16)
    rw [h16] at this
    rw [this]
    exact hlimb16
  · -- value equation
    rw [lval_append, lval_digits, length_digits, lval_cons, lval_nil]
    have hdecomp := lval17_decomp x hlen
    have hvlo_split : vlo = 256 ^ 16 * c1 + vlo % 256 ^ 16 := by
      rw [hc1def]
      exact (Nat.div_add_mod vlo (256 ^ 16)).symm
    have hc2_split : c2raw = 4 * (c2raw / 4) + c2raw % 4 := (Nat.div_add_mod c2raw 4).symm
    have hS2_split : S2 = 256 ^ 16 * (S2 / 256 ^ 16) + S2 % 256 ^ 16 :=
      (Nat.div_add_mod S2 (256 ^ 16)).symm
    have hp : p1305 = 2 ^ 130 - 5 := rfl
    have hpow : (256 : Nat) ^ 16 = 2 ^ 128 := by norm_num
    have h2130 : (2 : Nat) ^ 130 = 4 * 2 ^ 128 := by norm_num
    rw [hdecomp]
    rw [hpow] at hvlo_split hS2_split hldig ⊢
    rw [hldig] at hS2def
    have hveq : vlo = lval (List.take 16 x) := rfl
    rw [hp, h2130]
    omega

/- ---------------------------------------------------------------------
   poly1305_full_reduce: computes the value mod 2^130 - 5 whenever the
   input value is below 2 * (2^130 - 5).
   --------------------------------------------------------------------- -/

theorem mask_u32_hit : mask_u32 0x80 0x80 = 0xffffffff := by decide

theorem mask_u32_miss : mask_u32 0 0x80 = 0 := by decide

theorem and128_eq (d : Nat) : d &&& 0x80 = if d / 128 % 2 = 1 then 128 else 0 := by
  have h := Nat.and_two_pow d 7
  have ht : d.testBit 7 = decide (d / 2 ^ 7 % 2 = 1) := Nat.testBit_to_div_mod
  norm_num at h ht
  rw [h, ht]
  by_cases hd : d / 128 % 2 = 1 <;> simp [hd]

theorem and_ffffffff (a : Nat) (ha : a ≤ 255) : a &&& 0xffffffff = a := by
  have h := Nat.and_pow_two_sub_one_eq_mod a 32
  norm_num at h
  rw [h]
  omega

theorem zipWith_mask_keep (x y : List Nat) (hx : ∀ a ∈ x, a ≤ 255)
    (hlen : y.length = x.length) :
    List.zipWith (fun a b => (a &&& 0xffffffff) ||| (b &&& 0)) x y = x := by
  induction x generalizing y with
  | nil => simp
  | cons a as ih =>
      cases y with
      | nil => simp at hlen
      | cons b bs =>
          simp only [List.zipWith_cons_cons]
          rw [and_ffffffff a (hx a (List.mem_cons_self a as)), Nat.and_zero, Nat.or_zero]
          rw [ih bs (fun z hz => hx z (List.mem_cons_of_mem a hz)) (by simpa using hlen)]

theorem zipWith_mask_swap (x y : List Nat) (hy : ∀ a ∈ y, a ≤ 255)
    (hlen : y.length = x.length) :
    List.zipWith (fun a b => (a &&& 0) ||| (b &&& 0xffffffff)) x y = y := by
  induction x generalizing y with
  | nil => cases y with
      | nil => simp
      | cons b bs => simp at hlen
  | cons a as ih =>
      cases y with
      | nil => simp at hlen
      | cons b bs =>
          simp only [List.zipWith_cons_cons]
          rw [and_ffffffff b (hy b (List.mem_cons_self b bs)), Nat.and_zero, Nat.zero_or]
          rw [ih bs (fun z hz => hy z (List.mem_cons_of_mem b hz)) (by simpa using hlen)]

theorem negative_1305_val : lval negative_1305 = 2 ^ 136 - p1305 := by decide

theorem bit135_one (T : Nat) (h1 : 2 ^ 135 ≤ T) (h2 : T < 2 ^ 136) :
    T / 2 ^ 128 % 256 / 128 % 2 = 1 := by omega

theorem bit135_zero (T : Nat) (h1 : 2 ^ 136 ≤ T) (h2 : T < 2 ^ 136 + 2 ^ 135) :
    T / 2 ^ 128 % 256 / 128 % 2 = 0 := by omega

theorem poly1305_full_reduce_spec (x : List Nat) (hlen : x.length = 17)
    (hb : ∀ a ∈ x, a ≤ 255) (hv : lval x < 2 * p1305) :
    (poly1305_full_reduce x).length = 17 ∧
    (∀ a ∈ poly1305_full_reduce x, a ≤ 255) ∧
    lval (poly1305_full_reduce x) = lval x % p1305 := by
  have hnlen : negative_1305.length = 17 := by decide
  have hnb : ∀ a ∈ negative_1305, a ≤ 255 := by decide
  have hnval : lval negative_1305 = 2 ^ 136 - p1305 := negative_1305_val
  have hp : p1305 = 2 ^ 130 - 5 := rfl
  by_cases hcase : lval x < p1305
  · -- value already reduced: the subtraction is negative, keep x
    have hbit : (lval x + lval negative_1305) / 2 ^ 128 % 256 / 128 % 2 = 1 :=
      bit135_one _ (by omega) (by omega)
    have hmodp : lval x % p1305 = lval x := Nat.mod_eq_of_lt hcase
    have hxsub : poly1305_add x negative_1305 = digits 17 (lval x + lval negative_1305) := by
      rw [poly1305_add,
        poly1305_add_go_spec x negative_1305 0 (by omega) hb hnb (by omega), hlen,
        Nat.zero_add]
    have hd16 : (digits 17 (lval x + lval negative_1305)).getD 16 0
        = (lval x + lval negative_1305) / 2 ^ 128 % 256 := by
      rw [getD_digits 17 _ 16 (by norm_num)]
      norm_num
    rw [poly1305_full_reduce, hxsub, hd16, and128_eq, if_pos hbit, mask_u32_hit]
    have hxor : (0xffffffff : Nat) ^^^ 0xffffffff = 0 := by decide
    rw [hxor]
    rw [zipWith_mask_keep x (digits 17 (lval x + lval negative_1305)) hb
      (by rw [length_digits, hlen])]
    exact ⟨hlen, hb, hmodp.symm⟩
  · -- subtract 2^130 - 5 once: select the subtracted digits
    have hbit : (lval x + lval negative_1305) / 2 ^ 128 % 256 / 128 % 2 = 0 :=
      bit135_zero _ (by omega) (by omega)
    have hxsub : poly1305_add x negative_1305 = digits 17 (lval x + lval negative_1305) := by
      rw [poly1305_add,
        poly1305_add_go_spec x negative_1305 0 (by omega) hb hnb (by omega), hlen,
        Nat.zero_add]
    have hd16 : (digits 17 (lval x + lval negative_1305)).getD 16 0
        = (lval x + lval negative_1305) / 2 ^ 128 % 256 := by
      rw [getD_digits 17 _ 16 (by norm_num)]
      norm_num
    have hdig17le : ∀ a ∈ digits 17 (lval x + lval negative_1305), a ≤ 255 := digits_le 17 _
    rw [poly1305_full_reduce, hxsub, hd16, and128_eq, if_neg (by rw [hbit]; norm_num),
      mask_u32_miss]
    have hxor : (0 : Nat) ^^^ 0xffffffff = 0xffffffff := by decide
    rw [hxor]
    rw [zipWith_mask_swap x (digits 17 (lval x + lval negative_1305)) hdig17le
      (by rw [length_digits, hlen])]
    refine ⟨length_digits 17 _, hdig17le, ?_⟩
    have h := lval_digits 17 (lval x + lval negative_1305)
    have hpow : (256 : Nat) ^ 17 = 2 ^ 136 := by norm_num
    rw [hpow] at h
    rw [h, hp]
    rw [hp] at hnval hcase hv
    omega

/- ---------------------------------------------------------------------
   poly1305_mul: no overflow in the columns, and the 17-limb result
   represents x * y modulo 2^130 - 5.
   --------------------------------------------------------------------- -/

theorem lval_map_range (f : Nat → Nat) (n : Nat) :
    lval ((List.range n).map f) = ∑ i in Finset.range n, f i * 256 ^ i := by
  induction n with
  | zero => simp [lval_nil]
  | succ n ih =>
      rw [List.range_succ, List.map_append, lval_append, ih, List.map_cons, List.map_nil,
        lval_cons, lval_nil, Finset.sum_range_succ]
      simp only [List.length_map, List.length_range, Nat.add_zero]
      ring

theorem range_map_getD (l : List Nat) :
    (List.range l.length).map (fun i => l.getD i 0) = l := by
  apply List.ext_getElem
  · simp
  · intro i h1 h2
    simp only [List.getElem_map, List.getElem_range]
    rw [List.getD_eq_getElem l 0 h2]

theorem lval_eq_sum_getD (l : List Nat) :
    lval l = ∑ i in Finset.range l.length, l.getD i 0 * 256 ^ i := by
  conv_lhs => rw [← range_map_getD l]
  rw [lval_map_range]

theorem getD_le (l : List Nat) (i : Nat) (h : ∀ a ∈ l, a ≤ 255) : l.getD i 0 ≤ 255 := by
  rcases getD_mem_or l i 0 with hm | hm
  · exact h _ hm
  · omega

theorem poly1305_mul_col_exact (x y : List Nat)
    (hx : ∀ a ∈ x, a ≤ 255) (hy : ∀ a ∈ y, a ≤ 255) (i : Nat) (hi : i ≤ 16) :
    poly1305_mul_col x y i
      = (∑ j in Finset.range (i + 1), x.getD j 0 * y.getD (i - j) 0)
        + ∑ j in Finset.Ico (i + 1) 17, (5 <<< 6) * (x.getD j 0 * y.getD (i + 17 - j) 0) ∧
    poly1305_mul_col x y i ≤ 2 ^ 29 := by
  have h56 : (5 <<< 6 : Nat) = 320 := rfl
  have hb1 : (∑ j in Finset.range (i + 1), x.getD j 0 * y.getD (i - j) 0) ≤ (i + 1) * 65025 := by
    calc (∑ j in Finset.range (i + 1), x.getD j 0 * y.getD (i - j) 0)
        ≤ (Finset.range (i + 1)).card • 65025 := by
          apply Finset.sum_le_card_nsmul
          intro j _
          exact Nat.mul_le_mul (getD_le x j hx) (getD_le y (i - j) hy)
      _ = (i + 1) * 65025 := by rw [Finset.card_range, smul_eq_mul]
  have hb2 : (∑ j in Finset.Ico (i + 1) 17, (5 <<< 6) * (x.getD j 0 * y.getD (i + 17 - j) 0))
      ≤ 16 * (320 * 65025) := by
    calc (∑ j in Finset.Ico (i + 1) 17, (5 <<< 6) * (x.getD j 0 * y.getD (i + 17 - j) 0))
        ≤ (Finset.Ico (i + 1) 17).card • (320 * 65025) := by
          apply Finset.sum_le_card_nsmul
          intro j _
          rw [h56]
          exact Nat.mul_le_mul (Nat.le_refl 320)
            (Nat.mul_le_mul (getD_le x j hx) (getD_le y (i + 17 - j) hy))
      _ ≤ 16 * (320 * 65025) := by
          rw [Nat.card_Ico, smul_eq_mul]
          have : 17 - (i + 1) ≤ 16 := by omega
          exact Nat.mul_le_mul_right _ this
  have hno : (∑ j in Finset.range (i + 1), x.getD j 0 * y.getD (i - j) 0)
      + (∑ j in Finset.Ico (i + 1) 17, (5 <<< 6) * (x.getD j 0 * y.getD (i + 17 - j) 0))
      < 2 ^ 32 := by omega
  constructor
  · rw [poly1305_mul_col, Nat.mod_eq_of_lt hno]
  · rw [poly1305_mul_col, Nat.mod_eq_of_lt hno]
    omega

theorem cast320 : ((320 : Nat) : ZMod p1305) = (256 : ZMod p1305) ^ 17 := by
  have hmod : (256 ^ 17 : Nat) % p1305 = 320 := by decide
  calc ((320 : Nat) : ZMod p1305)
      = ((256 ^ 17 % p1305 : Nat) : ZMod p1305) := by rw [hmod]
    _ = ((256 ^ 17 : Nat) : ZMod p1305) := ZMod.natCast_mod _ _
    _ = (256 : ZMod p1305) ^ 17 := by push_cast; ring

set_option maxHeartbeats 1000000 in
theorem mul_cols_value (x y : List Nat) (hxlen : x.length = 17) (hylen : y.length = 17)
    (hx : ∀ a ∈ x, a ≤ 255) (hy : ∀ a ∈ y, a ≤ 255) :
    (lval ((List.range 17).map (poly1305_mul_col x y)) : ZMod p1305)
      = (lval x : ZMod p1305) * (lval y : ZMod p1305) := by
  have h56 : (5 <<< 6 : Nat) = 320 := rfl
  rw [lval_map_range]
  have hcol : ∀ i ∈ Finset.range 17, poly1305_mul_col x y i * 256 ^ i
      = (∑ j in Finset.range (i + 1), x.getD j 0 * y.getD (i - j) 0 * 256 ^ i)
        + ∑ j in Finset.Ico (i + 1) 17, 320 * (x.getD j 0 * y.getD (i + 17 - j) 0) * 256 ^ i := by
    intro i hi
    have hi16 : i ≤ 16 := by
      have := Finset.mem_range.mp hi
      omega
    rw [(poly1305_mul_col_exact x y hx hy i hi16).1, h56, add_mul, Finset.sum_mul,
      Finset.sum_mul]
  rw [Finset.sum_congr rfl hcol, Finset.sum_add_distrib]
  have hlx : (lval x : ZMod p1305)
      = ∑ j in Finset.range 17, (x.getD j 0 : ZMod p1305) * 256 ^ j := by
    rw [lval_eq_sum_getD, hxlen]
    push_cast
    rfl
  have hly : (lval y : ZMod p1305)
      = ∑ j in Finset.range 17, (y.getD j 0 : ZMod p1305) * 256 ^ j := by
    rw [lval_eq_sum_getD, hylen]
    push_cast
    rfl
  rw [hlx, hly, Finset.sum_mul_sum]
  push_cast
  -- right-hand side as a sum over the product set, split at j + k <= 16
  have hrhs : ∑ j in Finset.range 17, ∑ k in Finset.range 17,
        ((x.getD j 0 : ZMod p1305) * 256 ^ j) * ((y.getD k 0 : ZMod p1305) * 256 ^ k)
      = ∑ q in Finset.range 17 ×ˢ Finset.range 17,
        (x.getD q.1 0 : ZMod p1305) * (y.getD q.2 0 : ZMod p1305) * 256 ^ (q.1 + q.2) := by
    rw [Finset.sum_product]
    apply Finset.sum_congr rfl
    intro j _
    apply Finset.sum_congr rfl
    intro k _
    rw [pow_add]
    ring
  rw [hrhs, ← Finset.sum_filter_add_sum_filter_not (Finset.range 17 ×ˢ Finset.range 17)
    (fun q => q.1 + q.2 ≤ 16)]
  have h1 : ∑ i in Finset.range 17,
        ∑ j in Finset.range (i + 1),
          ((x.getD j 0 : ZMod p1305) * (y.getD (i - j) 0 : ZMod p1305)) * 256 ^ i
      = ∑ q in (Finset.range 17 ×ˢ Finset.range 17).filter (fun q => q.1 + q.2 ≤ 16),
          (x.getD q.1 0 : ZMod p1305) * (y.getD q.2 0 : ZMod p1305) * 256 ^ (q.1 + q.2) := by
    rw [Finset.sum_sigma']
    apply Finset.sum_nbij' (fun p => (p.2, p.1 - p.2)) (fun q => ⟨q.1 + q.2, q.1⟩)
    · intro a ha
      simp only [Finset.mem_sigma, Finset.mem_range] at ha
      simp only [Finset.mem_filter, Finset.mem_product, Finset.mem_range]
      omega
    · intro a ha
      simp only [Finset.mem_filter, Finset.mem_product, Finset.mem_range] at ha
      simp only [Finset.mem_sigma, Finset.mem_range]
      omega
    · intro a ha
      simp only [Finset.mem_sigma, Finset.mem_range] at ha
      obtain ⟨i, j⟩ := a
      simp only at ha ⊢
      have hij : j + (i - j) = i := by omega
      simp only [hij]
    · intro a ha
      simp only [Finset.mem_filter, Finset.mem_product, Finset.mem_range] at ha
      obtain ⟨j, k⟩ := a
      simp only at ha ⊢
      have hjk : j + k - j = k := by omega
      simp only [hjk]
    · intro a ha
      simp only [Finset.mem_sigma, Finset.mem_range] at ha
      obtain ⟨i, j⟩ := a
      simp only at ha ⊢
      have hij : j + (i - j) = i := by omega
      rw [hij]
  have h2 : ∑ i in Finset.range 17,
        ∑ j in Finset.Ico (i + 1) 17,
          (320 : ZMod p1305) * ((x.getD j 0 : ZMod p1305) * (y.getD (i + 17 - j) 0 : ZMod p1305))
            * 256 ^ i
      = ∑ q in (Finset.range 17 ×ˢ Finset.range 17).filter (fun q => ¬ (q.1 + q.2 ≤ 16)),
          (x.getD q.1 0 : ZMod p1305) * (y.getD q.2 0 : ZMod p1305) * 256 ^ (q.1 + q.2) := by
    rw [Finset.sum_sigma']
    apply Finset.sum_nbij' (fun p => (p.2, p.1 + 17 - p.2)) (fun q => ⟨q.1 + q.2 - 17, q.1⟩)
    · intro a ha
      simp only [Finset.mem_sigma, Finset.mem_range, Finset.mem_Ico] at ha
      simp only [Finset.mem_filter, Finset.mem_product, Finset.mem_range]
      omega
    · intro a ha
      simp only [Finset.mem_filter, Finset.mem_product, Finset.mem_range] at ha
      simp only [Finset.mem_sigma, Finset.mem_range, Finset.mem_Ico]
      omega
    · intro a ha
      simp only [Finset.mem_sigma, Finset.mem_range, Finset.mem_Ico] at ha
      obtain ⟨i, j⟩ := a
      simp only at ha ⊢
      have h1' : j + (i + 17 - j) - 17 = i := by omega
      simp only [h1']
    · intro a ha
      simp only [Finset.mem_filter, Finset.mem_product, Finset.mem_range] at ha
      obtain ⟨j, k⟩ := a
      simp only at ha ⊢
      have h1' : j + (j + k - 17 + 17 - j) = j + k := by omega
      have h2' : j + k - 17 + 17 - j = k := by omega
      simp only [h2']
    · intro a ha
      simp only [Finset.mem_sigma, Finset.mem_range, Finset.mem_Ico] at ha
      obtain ⟨i, j⟩ := a
      simp only at ha ⊢
      have hexp : j + (i + 17 - j) = i + 17 := by omega
      rw [hexp, show (320 : ZMod p1305) = ((320 : Nat) : ZMod p1305) by norm_cast,
        cast320, pow_add]
      ring
  rw [← h1, ← h2]

set_option maxHeartbeats 1000000 in
theorem poly1305_mul_spec (x y : List Nat) (hxlen : x.length = 17) (hylen : y.length = 17)
    (hx : ∀ a ∈ x, a ≤ 255) (hy : ∀ a ∈ y, a ≤ 255) :
    (poly1305_mul x y).length = 17 ∧
    (∀ a ∈ (poly1305_mul x y).take 16, a ≤ 255) ∧
    (poly1305_mul x y).getD 16 0 ≤ 4 ∧
    (lval (poly1305_mul x y) : ZMod p1305) = lval x * lval y := by
  have hcols_len : ((List.range 17).map (poly1305_mul_col x y)).length = 17 := by simp
  have hcols_le : ∀ a ∈ (List.range 17).map (poly1305_mul_col x y), a ≤ 2 ^ 29 := by
    intro a ha
    obtain ⟨i, hi, rfl⟩ := List.mem_map.mp ha
    have hi16 : i ≤ 16 := by
      have := List.mem_range.mp hi
      omega
    exact (poly1305_mul_col_exact x y hx hy i hi16).2
  obtain ⟨hl, hle, h16, k, hk⟩ := poly1305_min_reduce_spec _ hcols_len hcols_le
  rw [poly1305_mul]
  refine ⟨hl, hle, h16, ?_⟩
  rw [← mul_cols_value x y hxlen hylen hx hy]
  conv_rhs => rw [hk]
  generalize lval (poly1305_min_reduce ((List.range 17).map (poly1305_mul_col x y))) = A
  push_cast
  rw [ZMod.natCast_self]
  ring

/- ---------------------------------------------------------------------
   splitBlocks: structural facts.
   --------------------------------------------------------------------- -/

theorem splitBlocksF_congr (f1 : Nat) : ∀ (f2 : Nat) (l : List Nat),
    l.length ≤ f1 → l.length ≤ f2 → splitBlocksF f1 l = splitBlocksF f2 l := by
  induction f1 with
  | zero =>
      intro f2 l h1 _
      have : l = [] := List.length_eq_zero.mp (by omega)
      subst this
      cases f2 with
      | zero => rfl
      | succ f2 => simp [splitBlocksF]
  | succ f1 ih =>
      intro f2 l h1 h2
      cases f2 with
      | zero =>
          have : l = [] := List.length_eq_zero.mp (by omega)
          subst this
          simp [splitBlocksF]
      | succ f2 =>
          rw [splitBlocksF, splitBlocksF]
          by_cases hlen : l.length < 16
          · rw [if_pos hlen, if_pos hlen]
          · rw [if_neg hlen, if_neg hlen]
            have hd : (l.drop 16).length ≤ f1 := by
              rw [List.length_drop]
              omega
            have hd2 : (l.drop 16).length ≤ f2 := by
              rw [List.length_drop]
              omega
            rw [ih f2 (l.drop 16) hd hd2]

theorem splitBlocks_eq (l : List Nat) :
    splitBlocks l = if l.length < 16 then ([], l)
      else (l.take 16 :: (splitBlocks (l.drop 16)).1, (splitBlocks (l.drop 16)).2) := by
  by_cases hlen : l.length < 16
  · rw [if_pos hlen, splitBlocks]
    cases hl : l.length with
    | zero => rfl
    | succ n =>
        rw [splitBlocksF]
        rw [if_pos hlen]
  · rw [if_neg hlen, splitBlocks]
    have h16 : 16 ≤ l.length := by omega
    cases hl : l.length with
    | zero => omega
    | succ n =>
        rw [splitBlocksF]
        rw [if_neg hlen]
        have hdl : (l.drop 16).length ≤ n := by
          rw [List.length_drop]
          omega
        rw [splitBlocks,
          splitBlocksF_congr n (l.drop 16).length (l.drop 16) hdl (Nat.le_refl _)]

theorem splitBlocks_small (l : List Nat) (h : l.length < 16) : splitBlocks l = ([], l) := by
  rw [splitBlocks_eq, if_pos h]

theorem splitBlocks_facts (n : Nat) : ∀ l : List Nat, l.length ≤ n →
    (splitBlocks l).2.length = l.length % 16 ∧
    (∀ b ∈ (splitBlocks l).1, b.length = 16 ∧ ∀ a ∈ b, a ∈ l) ∧
    (∀ a ∈ (splitBlocks l).2, a ∈ l) := by
  induction n with
  | zero =>
      intro l hl
      have : l = [] := List.length_eq_zero.mp (by omega)
      subst this
      rw [splitBlocks_small [] (by simp)]
      simp
  | succ n ih =>
      intro l hl
      by_cases hlen : l.length < 16
      · rw [splitBlocks_small l hlen]
        refine ⟨by rw [Nat.mod_eq_of_lt hlen], by simp, by simp⟩
      · rw [splitBlocks_eq, if_neg hlen]
        have hdl : (l.drop 16).length ≤ n := by
          rw [List.length_drop]
          omega
        obtain ⟨ihr, ihb, ihm⟩ := ih (l.drop 16) hdl
        refine ⟨?_, ?_, ?_⟩
        · rw [ihr, List.length_drop]
          omega
        · intro b hb
          rcases List.mem_cons.mp hb with h | h
          · subst h
            refine ⟨by rw [List.length_take]; omega, ?_⟩
            intro a ha
            exact List.mem_of_mem_take ha
          · obtain ⟨hb1, hb2⟩ := ihb b h
            exact ⟨hb1, fun a ha => List.mem_of_mem_drop (hb2 a ha)⟩
        · intro a ha
          exact List.mem_of_mem_drop (ihm a ha)

theorem splitBlocks_append (n : Nat) : ∀ l1 l2 : List Nat, l1.length ≤ n →
    (splitBlocks (l1 ++ l2)).1
      = (splitBlocks l1).1 ++ (splitBlocks ((splitBlocks l1).2 ++ l2)).1 ∧
    (splitBlocks (l1 ++ l2)).2 = (splitBlocks ((splitBlocks l1).2 ++ l2)).2 := by
  induction n with
  | zero =>
      intro l1 l2 hl
      have : l1 = [] := List.length_eq_zero.mp (by omega)
      subst this
      rw [splitBlocks_small [] (by simp)]
      simp
  | succ n ih =>
      intro l1 l2 hl
      by_cases hlen : l1.length < 16
      · rw [splitBlocks_small l1 hlen]
        simp
      · have h16 : 16 ≤ l1.length := by omega
        have htk : (l1 ++ l2).take 16 = l1.take 16 := List.take_append_of_le_length h16
        have hdr : (l1 ++ l2).drop 16 = l1.drop 16 ++ l2 := List.drop_append_of_le_length h16
        have hlarge : ¬ (l1 ++ l2).length < 16 := by
          rw [List.length_append]
          omega
        have hdl : (l1.drop 16).length ≤ n := by
          rw [List.length_drop]
          omega
        obtain ⟨ih1, ih2⟩ := ih (l1.drop 16) l2 hdl
        constructor
        · rw [splitBlocks_eq (l1 ++ l2), if_neg hlarge, hdr, htk, ih1,
            splitBlocks_eq l1, if_neg hlen]
          simp
        · rw [splitBlocks_eq (l1 ++ l2), if_neg hlarge, hdr, ih2,
            splitBlocks_eq l1, if_neg hlen]

/- ---------------------------------------------------------------------
   Poly1305 context invariant: shape of any reachable accumulator.
   --------------------------------------------------------------------- -/

/-- Invariant of every reachable cf_poly1305 context: 17 limbs with the
    low 16 bytes and a small top limb in h, a 17-limb byte-bounded r,
    a 16-byte pad s, and a buffered partial block of fewer than 16 bytes. -/
def polyInv (ctx : cf_poly1305) : Prop :=
  ctx.h.length = 17 ∧ (∀ a ∈ ctx.h.take 16, a ≤ 255) ∧ ctx.h.getD 16 0 ≤ 4 ∧
  ctx.r.length = 17 ∧ (∀ a ∈ ctx.r, a ≤ 255) ∧
  ctx.s.length = 16 ∧ (∀ a ∈ ctx.s, a ≤ 255) ∧
  ctx.pbuf.length < 16 ∧ (∀ a ∈ ctx.pbuf, a ≤ 255)

theorem mem_le_of_parts (l : List Nat) (hlen : l.length = 17)
    (h1 : ∀ a ∈ l.take 16, a ≤ 255) (h2 : l.getD 16 0 ≤ 255) : ∀ a ∈ l, a ≤ 255 := by
  intro a ha
  rw [list17_decomp l hlen] at ha
  rcases List.mem_append.mp ha with h | h
  · exact h1 a h
  · rcases List.mem_singleton.mp h with rfl
    exact h2

theorem lval_le_of_parts (l : List Nat) (hlen : l.length = 17)
    (h1 : ∀ a ∈ l.take 16, a ≤ 255) (h2 : l.getD 16 0 ≤ 4) :
    lval l < 5 * 2 ^ 128 := by
  have hd := lval17_decomp l hlen
  have hlt : lval (l.take 16) < 256 ^ 16 := by
    have := lval_lt_of_bytes (l.take 16) h1
    have hlen16 : (l.take 16).length = 16 := by simp [hlen]
    rwa [hlen16] at this
  have hpow : (256 : Nat) ^ 16 = 2 ^ 128 := by norm_num
  rw [hpow] at hlt
  omega

theorem polyInv_init (r s : List Nat) (hr : ∀ a ∈ r, a ≤ 255) (hs : ∀ a ∈ s, a ≤ 255)
    (hslen : s.length = 16) :
    polyInv (cf_poly1305_init r s) ∧ (cf_poly1305_init r s).s = s ∧
    (cf_poly1305_init r s).h = List.replicate 17 0 := by
  have hg : ∀ i, r.getD i 0 ≤ 255 := fun i => getD_le r i hr
  refine ⟨⟨by simp [cf_poly1305_init], ?_, ?_, by simp [cf_poly1305_init], ?_, ?_, ?_, ?_, ?_⟩,
    ?_, rfl⟩
  · intro a ha
    have := List.mem_of_mem_take ha
    rw [List.eq_of_mem_replicate this]
    decide
  · show (List.replicate 17 0).getD 16 0 ≤ 4
    decide
  · intro a ha
    simp only [cf_poly1305_init, List.mem_cons, List.not_mem_nil, or_false] at ha
    rcases ha with rfl|rfl|rfl|rfl|rfl|rfl|rfl|rfl|rfl|rfl|rfl|rfl|rfl|rfl|rfl|rfl|rfl
    all_goals first
      | exact hg _
      | exact le_trans Nat.and_le_left (hg _)
      | exact le_trans (Nat.and_le_left _ _) (hg _)
      | exact Nat.zero_le 255
  · show (s.take 16).length = 16
    rw [List.length_take, hslen]
    decide
  · intro a ha
    exact hs a (List.mem_of_mem_take ha)
  · show ([] : List Nat).length < 16
    decide
  · intro a ha
    exact absurd ha (List.not_mem_nil a)
  · show s.take 16 = s
    rw [List.take_of_length_le (by omega)]

theorem poly1305_block_spec (ctx : cf_poly1305) (c : List Nat) (hinv : polyInv ctx)
    (hclen : c.length = 17) (hc : ∀ a ∈ c.take 16, a ≤ 255) (hc16 : c.getD 16 0 ≤ 1) :
    polyInv (poly1305_block ctx c) ∧
    (poly1305_block ctx c).r = ctx.r ∧ (poly1305_block ctx c).s = ctx.s ∧
    (poly1305_block ctx c).pbuf = ctx.pbuf ∧
    (lval (poly1305_block ctx c).h : ZMod p1305)
      = ((lval ctx.h + lval c : Nat) : ZMod p1305) * (lval ctx.r : ZMod p1305) := by
  obtain ⟨hh17, hht, hh16, hr17, hrle, hsl, hsle, hpl, hple⟩ := hinv
  have hhle : ∀ a ∈ ctx.h, a ≤ 255 := mem_le_of_parts _ hh17 hht (by omega)
  have hcle : ∀ a ∈ c, a ≤ 255 := mem_le_of_parts _ hclen hc (by omega)
  have hadd : poly1305_add ctx.h c = digits 17 (lval ctx.h + lval c) := by
    rw [poly1305_add, poly1305_add_go_spec ctx.h c 0 (by omega) hhle hcle (by omega), hh17,
      Nat.zero_add]
  have hS : lval ctx.h + lval c < 2 ^ 136 := by
    have h1 := lval_le_of_parts ctx.h hh17 hht hh16
    have h2 := lval_le_of_parts c hclen hc (by omega)
    omega
  have hdl : (digits 17 (lval ctx.h + lval c)).length = 17 := length_digits _ _
  obtain ⟨hm1, hm2, hm3, hm4⟩ := poly1305_mul_spec (digits 17 (lval ctx.h + lval c)) ctx.r
    hdl hr17 (digits_le _ _) hrle
  have hblock : poly1305_block ctx c
      = { ctx with h := poly1305_mul (digits 17 (lval ctx.h + lval c)) ctx.r } := by
    rw [poly1305_block, hadd]
  rw [hblock]
  refine ⟨⟨hm1, hm2, hm3, hr17, hrle, hsl, hsle, hpl, hple⟩, rfl, rfl, rfl, ?_⟩
  rw [hm4]
  have hld : lval (digits 17 (lval ctx.h + lval c)) = lval ctx.h + lval c := by
    rw [lval_digits]
    have hpow : (256 : Nat) ^ 17 = 2 ^ 136 := by norm_num
    rw [hpow]
    exact Nat.mod_eq_of_lt hS
  rw [hld]

theorem getD_map_range (f : Nat → Nat) (n i : Nat) (h : i < n) :
    ((List.range n).map f).getD i 0 = f i := by
  rw [List.getD_eq_getElem _ 0 (by simp [h])]
  simp

theorem whole_block_c_facts (buf : List Nat) (hb : ∀ a ∈ buf, a ≤ 255) :
    (poly1305_whole_block_c buf).length = 17 ∧
    (∀ a ∈ (poly1305_whole_block_c buf).take 16, a ≤ 255) ∧
    (poly1305_whole_block_c buf).getD 16 0 = 1 ∧
    (∀ i, i < 16 → (poly1305_whole_block_c buf).getD i 0 = buf.getD i 0) := by
  have hmlen : ((List.range 16).map (fun i => buf.getD i 0)).length = 16 := by simp
  refine ⟨by simp [poly1305_whole_block_c], ?_, ?_, ?_⟩
  · intro a ha
    rw [poly1305_whole_block_c] at ha
    have htk : (((List.range 16).map (fun i => buf.getD i 0)) ++ [1]).take 16
        = (List.range 16).map (fun i => buf.getD i 0) := by
      conv_lhs => rw [← hmlen]
      exact List.take_left _ _
    rw [htk] at ha
    obtain ⟨i, _, rfl⟩ := List.mem_map.mp ha
    exact getD_le buf i hb
  · rw [poly1305_whole_block_c]
    have := getD_append_length ((List.range 16).map (fun i => buf.getD i 0)) 1
    rwa [hmlen] at this
  · intro i hi
    rw [poly1305_whole_block_c]
    rw [List.getD_eq_getElem _ 0 (by simp; omega)]
    rw [List.getElem_append_left (by simp [hi])]
    have := getD_map_range (fun i => buf.getD i 0) 16 i hi
    rw [List.getD_eq_getElem _ 0 (by simp [hi])] at this
    exact this

theorem last_block_c_facts (pb : List Nat) (hlen : pb.length < 16)
    (hb : ∀ a ∈ pb, a ≤ 255) :
    (poly1305_last_block_c pb).length = 17 ∧
    (∀ a ∈ (poly1305_last_block_c pb).take 16, a ≤ 255) ∧
    (poly1305_last_block_c pb).getD 16 0 = 0 ∧
    (poly1305_last_block_c pb).getD pb.length 0 = 1 ∧
    (∀ i, i < pb.length → (poly1305_last_block_c pb).getD i 0 = pb.getD i 0) ∧
    (∀ i, pb.length < i → i ≤ 16 → (poly1305_last_block_c pb).getD i 0 = 0) := by
  have hentry : ∀ i, i < 17 → (poly1305_last_block_c pb).getD i 0
      = (if i < pb.length then pb.getD i 0 else if i = pb.length then 1 else 0) := by
    intro i hi
    rw [poly1305_last_block_c]
    exact getD_map_range _ 17 i hi
  refine ⟨by simp [poly1305_last_block_c], ?_, ?_, ?_, ?_, ?_⟩
  · intro a ha
    have ha' := List.mem_of_mem_take ha
    rw [poly1305_last_block_c] at ha'
    obtain ⟨i, _, rfl⟩ := List.mem_map.mp ha'
    by_cases h1 : i < pb.length
    · rw [if_pos h1]
      exact getD_le pb i hb
    · rw [if_neg h1]
      by_cases h2 : i = pb.length
      · rw [if_pos h2]
        omega
      · rw [if_neg h2]
        omega
  · rw [hentry 16 (by omega), if_neg (by omega), if_neg (by omega)]
  · rw [hentry pb.length (by omega), if_neg (by omega), if_pos rfl]
  · intro i hi
    rw [hentry i (by omega), if_pos hi]
  · intro i hi1 hi2
    rw [hentry i (by omega), if_neg (by omega), if_neg (by omega)]

theorem foldl_whole_block_inv (bs : List (List Nat)) : ∀ ctx : cf_poly1305, polyInv ctx →
    (∀ b ∈ bs, ∀ a ∈ b, a ≤ 255) →
    polyInv (bs.foldl poly1305_whole_block ctx) ∧
    (bs.foldl poly1305_whole_block ctx).r = ctx.r ∧
    (bs.foldl poly1305_whole_block ctx).s = ctx.s ∧
    (bs.foldl poly1305_whole_block ctx).pbuf = ctx.pbuf := by
  induction bs with
  | nil => intro ctx hinv _; exact ⟨hinv, rfl, rfl, rfl⟩
  | cons b bs ih =>
      intro ctx hinv hble
      have hb : ∀ a ∈ b, a ≤ 255 := hble b (List.mem_cons_self b bs)
      obtain ⟨hc1, hc2, hc3, _⟩ := whole_block_c_facts b hb
      obtain ⟨hinv', hr, hs, hp, _⟩ := poly1305_block_spec ctx (poly1305_whole_block_c b)
        hinv hc1 hc2 (by omega)
      rw [List.foldl_cons]
      obtain ⟨ih1, ih2, ih3, ih4⟩ := ih (poly1305_whole_block ctx b) hinv'
        (fun b' hb' => hble b' (List.mem_cons_of_mem b hb'))
      rw [poly1305_whole_block] at ih2 ih3 ih4 ⊢
      exact ⟨ih1, by rw [ih2, hr], by rw [ih3, hs], by rw [ih4, hp]⟩

theorem cf_poly1305_update_spec (ctx : cf_poly1305) (buf : List Nat) (hinv : polyInv ctx)
    (hb : ∀ a ∈ buf, a ≤ 255) :
    polyInv (cf_poly1305_update ctx buf) ∧
    (cf_poly1305_update ctx buf).r = ctx.r ∧
    (cf_poly1305_update ctx buf).s = ctx.s := by
  obtain ⟨hh17, hht, hh16, hr17, hrle, hsl, hsle, hpl, hple⟩ := hinv
  have hall : ∀ a ∈ ctx.pbuf ++ buf, a ≤ 255 := by
    intro a ha
    rcases List.mem_append.mp ha with h | h
    · exact hple a h
    · exact hb a h
  obtain ⟨hrem, hbl, hmem⟩ := splitBlocks_facts (ctx.pbuf ++ buf).length (ctx.pbuf ++ buf)
    (Nat.le_refl _)
  obtain ⟨hf1, hf2, hf3, hf4⟩ := foldl_whole_block_inv (splitBlocks (ctx.pbuf ++ buf)).1 ctx
    ⟨hh17, hht, hh16, hr17, hrle, hsl, hsle, hpl, hple⟩
    (fun b hb' a ha => hall a ((hbl b hb').2 a ha))
  obtain ⟨hg1, hg2, hg3, hg4, hg5, hg6, hg7, _, _⟩ := hf1
  rw [cf_poly1305_update]
  refine ⟨⟨hg1, hg2, hg3, hg4, hg5, hg6, hg7, ?_, ?_⟩, hf2, hf3⟩
  · show (splitBlocks (ctx.pbuf ++ buf)).2.length < 16
    rw [hrem]
    exact Nat.mod_lt _ (by norm_num)
  · intro a ha
    exact hall a (hmem a ha)

theorem poly1305_finish_ctx1_inv (ctx : cf_poly1305) (hinv : polyInv ctx) :
    polyInv (if ctx.pbuf = [] then ctx else poly1305_last_block ctx) ∧
    (if ctx.pbuf = [] then ctx else poly1305_last_block ctx).s = ctx.s := by
  obtain ⟨hh17, hht, hh16, hr17, hrle, hsl, hsle, hpl, hple⟩ := hinv
  by_cases hp : ctx.pbuf = []
  · rw [if_pos hp]
    exact ⟨⟨hh17, hht, hh16, hr17, hrle, hsl, hsle, hpl, hple⟩, rfl⟩
  · rw [if_neg hp]
    obtain ⟨hc1, hc2, hc3, _, _, _⟩ := last_block_c_facts ctx.pbuf hpl hple
    obtain ⟨hinv', _, hs, _, _⟩ := poly1305_block_spec ctx (poly1305_last_block_c ctx.pbuf)
      ⟨hh17, hht, hh16, hr17, hrle, hsl, hsle, hpl, hple⟩ hc1 hc2 (by omega)
    exact ⟨hinv', hs⟩

theorem cf_poly1305_finish_spec (ctx : cf_poly1305) (hinv : polyInv ctx) :
    cf_poly1305_finish ctx
      = digits 16 ((lval (if ctx.pbuf = [] then ctx else poly1305_last_block ctx).h % p1305
          + lval ctx.s) % 2 ^ 128) := by
  obtain ⟨hinv1, hs1⟩ := poly1305_finish_ctx1_inv ctx hinv
  obtain ⟨hh17, hht, hh16, hr17, hrle, hsl, hsle, hpl, hple⟩ := hinv1
  have hbound : lval (if ctx.pbuf = [] then ctx else poly1305_last_block ctx).h < 2 * p1305 := by
    have h1 := lval_le_of_parts _ hh17 hht hh16
    have hp : p1305 = 2 ^ 130 - 5 := rfl
    omega
  obtain ⟨hfl, hfle, hfval⟩ := poly1305_full_reduce_spec
    (if ctx.pbuf = [] then ctx else poly1305_last_block ctx).h hh17
    (mem_le_of_parts _ hh17 hht (by omega)) hbound
  have hs17len : ((if ctx.pbuf = [] then ctx else poly1305_last_block ctx).s.take 16
      ++ [0]).length = 17 := by
    rw [List.length_append, List.length_take, hsl]
    rfl
  have hs17le : ∀ a ∈ (if ctx.pbuf = [] then ctx else poly1305_last_block ctx).s.take 16
      ++ [0], a ≤ 255 := by
    intro a ha
    rcases List.mem_append.mp ha with h | h
    · exact hsle a (List.mem_of_mem_take h)
    · rcases List.mem_singleton.mp h with rfl
      omega
  have hs17val : lval ((if ctx.pbuf = [] then ctx else poly1305_last_block ctx).s.take 16
      ++ [0]) = lval ctx.s := by
    rw [List.take_of_length_le (by omega), lval_append, lval_cons, lval_nil, hs1]
    ring
  have hadd : poly1305_add
      (poly1305_full_reduce (if ctx.pbuf = [] then ctx else poly1305_last_block ctx).h)
      ((if ctx.pbuf = [] then ctx else poly1305_last_block ctx).s.take 16 ++ [0])
      = digits 17 (lval (if ctx.pbuf = [] then ctx else poly1305_last_block ctx).h % p1305
          + lval ctx.s) := by
    rw [poly1305_add, poly1305_add_go_spec _ _ 0 (by omega) hfle hs17le (by omega), hfl,
      Nat.zero_add, hfval, hs17val]
  rw [cf_poly1305_finish, hadd]
  have htake := take_digits 16 1
    (lval (if ctx.pbuf = [] then ctx else poly1305_last_block ctx).h % p1305 + lval ctx.s)
  have h161 : (16 : Nat) + 1 = 17 := rfl
  rw [h161] at htake
  rw [htake]
  have hdm := digits_mod 16
    (lval (if ctx.pbuf = [] then ctx else poly1305_last_block ctx).h % p1305 + lval ctx.s)
  have hpow : (256 : Nat) ^ 16 = 2 ^ 128 := by norm_num
  rw [hpow] at hdm
  rw [hdm]

/- ---------------------------------------------------------------------
   Streaming concatenation: splitting one input into several update calls
   feeds the very same blocks.
   --------------------------------------------------------------------- -/

theorem poly1305_whole_block_pbuf (ctx : cf_poly1305) (p : List Nat) (b : List Nat) :
    poly1305_whole_block { ctx with pbuf := p } b
      = { poly1305_whole_block ctx b with pbuf := p } := by
  cases ctx
  rfl

theorem foldl_whole_block_pbuf (bs : List (List Nat)) : ∀ (ctx : cf_poly1305) (p : List Nat),
    bs.foldl poly1305_whole_block { ctx with pbuf := p }
      = { bs.foldl poly1305_whole_block ctx with pbuf := p } := by
  induction bs with
  | nil => intro ctx p; rfl
  | cons b bs ih =>
      intro ctx p
      rw [List.foldl_cons, List.foldl_cons, poly1305_whole_block_pbuf, ih]

theorem cf_poly1305_update_append (ctx : cf_poly1305) (a b : List Nat) :
    cf_poly1305_update (cf_poly1305_update ctx a) b = cf_poly1305_update ctx (a ++ b) := by
  obtain ⟨h1, h2⟩ := splitBlocks_append (ctx.pbuf ++ a).length (ctx.pbuf ++ a) b (Nat.le_refl _)
  rw [cf_poly1305_update, cf_poly1305_update, cf_poly1305_update]
  dsimp only
  rw [foldl_whole_block_pbuf]
  dsimp only
  rw [← List.foldl_append]
  have hassoc : ctx.pbuf ++ (a ++ b) = (ctx.pbuf ++ a) ++ b := (List.append_assoc _ _ _).symm
  rw [hassoc, h1, h2]

/- ---------------------------------------------------------------------
   PADLEN arithmetic.
   --------------------------------------------------------------------- -/

theorem PADLEN_eq (x : Nat) : PADLEN x = (16 - x % 16) % 16 := by
  rw [PADLEN]
  have h1 : x &&& 0xf = x % 16 := by
    have := Nat.and_pow_two_sub_one_eq_mod x 4
    norm_num at this
    exact this
  have h2 : (16 - x % 16) &&& 0xf = (16 - x % 16) % 16 := by
    have := Nat.and_pow_two_sub_one_eq_mod (16 - x % 16) 4
    norm_num at this
    exact this
  rw [h1, h2]

theorem PADLEN_le (x : Nat) : PADLEN x ≤ 15 := by
  rw [PADLEN_eq]
  omega

theorem PADLEN_total (x : Nat) : (x + PADLEN x) % 16 = 0 := by
  rw [PADLEN_eq]
  omega

theorem PADLEN_zero_of_mod (x : Nat) (h : x % 16 = 0) : PADLEN x = 0 := by
  rw [PADLEN_eq]
  omega

theorem take_replicate_PADLEN (n : Nat) :
    (List.replicate 16 (0 : Nat)).take (PADLEN n) = List.replicate (PADLEN n) 0 := by
  rw [List.take_replicate]
  congr 1
  have := PADLEN_le n
  omega

/- ---------------------------------------------------------------------
   mem_eq: the full-length constant-time comparison decides byte equality.
   --------------------------------------------------------------------- -/

theorem and255 (v : Nat) : v &&& 0xff = v % 256 := by
  have h := Nat.and_pow_two_sub_one_eq_mod v 8
  norm_num at h
  exact h

theorem nat_or_eq_zero (a b : Nat) : a ||| b = 0 ↔ a = 0 ∧ b = 0 := by
  constructor
  · intro h
    constructor
    · apply Nat.eq_of_testBit_eq
      intro i
      have hcc := congrArg (fun n => n.testBit i) h
      simp only [Nat.testBit_or, Nat.zero_testBit] at hcc
      simp [(Bool.or_eq_false_iff.mp hcc).1, Nat.zero_testBit]
    · apply Nat.eq_of_testBit_eq
      intro i
      have hcc := congrArg (fun n => n.testBit i) h
      simp only [Nat.testBit_or, Nat.zero_testBit] at hcc
      simp [(Bool.or_eq_false_iff.mp hcc).2, Nat.zero_testBit]
  · rintro ⟨rfl, rfl⟩
    rfl

theorem mem_eq_step (a b : List Nat) (n : Nat) :
    (List.range (n + 1)).foldl
        (fun d i => (d ||| (a.getD i 0 ^^^ b.getD i 0)) &&& 0xff) 0
      = (((List.range n).foldl
            (fun d i => (d ||| (a.getD i 0 ^^^ b.getD i 0)) &&& 0xff) 0)
          ||| (a.getD n 0 ^^^ b.getD n 0)) &&& 0xff := by
  rw [List.range_succ, List.foldl_append, List.foldl_cons, List.foldl_nil]

theorem mem_eq_diff_lt (a b : List Nat) (n : Nat) :
    (List.range n).foldl
        (fun d i => (d ||| (a.getD i 0 ^^^ b.getD i 0)) &&& 0xff) 0 < 256 := by
  induction n with
  | zero => simp
  | succ n _ =>
      rw [mem_eq_step, and255]
      exact Nat.mod_lt _ (by norm_num)

theorem mem_eq_diff_zero_iff (a b : List Nat) (ha : ∀ x ∈ a, x ≤ 255)
    (hb : ∀ x ∈ b, x ≤ 255) (n : Nat) :
    (List.range n).foldl
        (fun d i => (d ||| (a.getD i 0 ^^^ b.getD i 0)) &&& 0xff) 0 = 0
      ↔ ∀ i, i < n → a.getD i 0 = b.getD i 0 := by
  induction n with
  | zero => simp
  | succ n ih =>
      rw [mem_eq_step]
      have hxor : a.getD n 0 ^^^ b.getD n 0 < 256 := by
        have h1 : a.getD n 0 < 2 ^ 8 := by
          have := getD_le a n ha
          omega
        have h2 : b.getD n 0 < 2 ^ 8 := by
          have := getD_le b n hb
          omega
        have := Nat.xor_lt_two_pow h1 h2
        omega
      have hor : ((List.range n).foldl
            (fun d i => (d ||| (a.getD i 0 ^^^ b.getD i 0)) &&& 0xff) 0)
          ||| (a.getD n 0 ^^^ b.getD n 0) < 256 := by
        have h1 := mem_eq_diff_lt a b n
        have h2 : (List.range n).foldl
            (fun d i => (d ||| (a.getD i 0 ^^^ b.getD i 0)) &&& 0xff) 0 < 2 ^ 8 := by
          omega
        have h3 : a.getD n 0 ^^^ b.getD n 0 < 2 ^ 8 := by omega
        have h4 := Nat.or_lt_two_pow h2 h3
        omega
      have hand : (((List.range n).foldl
            (fun d i => (d ||| (a.getD i 0 ^^^ b.getD i 0)) &&& 0xff) 0)
          ||| (a.getD n 0 ^^^ b.getD n 0)) &&& 0xff
          = ((List.range n).foldl
            (fun d i => (d ||| (a.getD i 0 ^^^ b.getD i 0)) &&& 0xff) 0)
          ||| (a.getD n 0 ^^^ b.getD n 0) := by
        rw [and255]
        exact Nat.mod_eq_of_lt hor
      rw [hand, nat_or_eq_zero, ih, Nat.xor_eq_zero]
      constructor
      · rintro ⟨h1, h2⟩ i hi
        rcases Nat.lt_succ_iff_lt_or_eq.mp hi with h | h
        · exact h1 i h
        · subst h
          exact h2
      · intro h
        exact ⟨fun i hi => h i (by omega), h n (by omega)⟩

theorem mem_eq_one_iff (a b : List Nat) (len : Nat) (ha : ∀ x ∈ a, x ≤ 255)
    (hb : ∀ x ∈ b, x ≤ 255) :
    mem_eq a b len = 1 ↔ ∀ i, i < len → a.getD i 0 = b.getD i 0 := by
  rw [mem_eq]
  by_cases h : (List.range len).foldl
      (fun d i => (d ||| (a.getD i 0 ^^^ b.getD i 0)) &&& 0xff) 0 = 0
  · simp only [if_pos h]
    constructor
    · intro _ i hi
      exact (mem_eq_diff_zero_iff a b ha hb len).mp h i hi
    · intro _
      trivial
  · simp only [if_neg h]
    constructor
    · intro hc
      omega
    · intro hc
      exact absurd ((mem_eq_diff_zero_iff a b ha hb len).mpr hc) h

theorem mem_eq_self (a : List Nat) (len : Nat) : mem_eq a a len = 1 := by
  rw [mem_eq]
  have h : (List.range len).foldl
      (fun d i => (d ||| (a.getD i 0 ^^^ a.getD i 0)) &&& 0xff) 0 = 0 := by
    induction len with
    | zero => rfl
    | succ n ih =>
        rw [mem_eq_step, ih]
        simp [Nat.xor_self]
  rw [if_pos h]

/- ---------------------------------------------------------------------
   ChaCha20-Poly1305: stream XOR facts and the single-transcript form of
   the MAC input.
   --------------------------------------------------------------------- -/

theorem chachaXor_length (ks : Nat → Nat) (off : Nat) (input : List Nat) :
    (chachaXor ks off input).length = input.length := by
  simp [chachaXor]

theorem chachaXor_getD (ks : Nat → Nat) (off : Nat) (input : List Nat) (i : Nat)
    (h : i < input.length) :
    (chachaXor ks off input).getD i 0 = input.getD i 0 ^^^ ks (off + i) := by
  rw [chachaXor, getD_map_range _ _ i h]

theorem chachaXor_involutive (ks : Nat → Nat) (off : Nat) (input : List Nat) :
    chachaXor ks off (chachaXor ks off input) = input := by
  conv_lhs => rw [chachaXor, chachaXor_length]
  have hmap : ∀ i ∈ List.range input.length,
      (chachaXor ks off input).getD i 0 ^^^ ks (off + i) = input.getD i 0 := by
    intro i hi
    rw [chachaXor_getD ks off input i (List.mem_range.mp hi), Nat.xor_cancel_right]
  rw [List.map_congr_left hmap]
  exact range_map_getD input

theorem process_mac_eq (ks : Nat → Nat) (header input : List Nat) (mode : Nat) :
    process_mac ks header input mode
      = cf_poly1305_update
          (cf_poly1305_init ((chachaXor ks 0 (List.replicate 32 0)).take 16)
            ((chachaXor ks 0 (List.replicate 32 0)).drop 16))
          (chachapoly_transcript header
            (if mode = ENCRYPT then chachaXor ks 64 input else input)) := by
  by_cases hmode : mode = ENCRYPT
  · simp only [process_mac, if_pos hmode]
    rw [cf_poly1305_update_append, cf_poly1305_update_append, cf_poly1305_update_append,
      cf_poly1305_update_append, take_replicate_PADLEN, take_replicate_PADLEN,
      chachapoly_transcript, chachaXor_length]
    simp only [List.append_assoc]
  · simp only [process_mac, if_neg hmode]
    rw [cf_poly1305_update_append, cf_poly1305_update_append, cf_poly1305_update_append,
      cf_poly1305_update_append, take_replicate_PADLEN, take_replicate_PADLEN,
      chachapoly_transcript]
    simp only [List.append_assoc]

/- ---------------------------------------------------------------------
   GHASH streaming: the incremental context computes the block fold.
   --------------------------------------------------------------------- -/

theorem foldl_ghash_block_eq (bs : List (List Nat)) : ∀ ctx : ghash_ctx,
    bs.foldl ghash_block ctx
      = { ctx with Y := ghash_blocks ctx.gf128_mul ctx.H ctx.Y bs } := by
  induction bs with
  | nil => intro ctx; rfl
  | cons b bs ih =>
      intro ctx
      rw [List.foldl_cons, ih]
      rfl

theorem ghash_add_eq (ctx : ghash_ctx) (buf : List Nat) :
    ghash_add ctx buf = { ctx with
      Y := ghash_blocks ctx.gf128_mul ctx.H ctx.Y (splitBlocks (ctx.buffer ++ buf)).1,
      buffer := (splitBlocks (ctx.buffer ++ buf)).2 } := by
  rw [ghash_add]
  rw [foldl_ghash_block_eq]

theorem ghash_blocks_append (fmul : Nat → Nat → Nat) (H Y : Nat) (bs1 bs2 : List (List Nat)) :
    ghash_blocks fmul H Y (bs1 ++ bs2)
      = ghash_blocks fmul H (ghash_blocks fmul H Y bs1) bs2 := by
  rw [ghash_blocks, ghash_blocks, ghash_blocks, List.foldl_append]

theorem length_write64_be (v : Nat) : (write64_be v).length = 8 := by
  rw [write64_be, beBytes, List.length_reverse, length_digits]

theorem length_write64_le (v : Nat) : (write64_le v).length = 8 := by
  rw [write64_le, length_digits]

theorem PADLEN_mod16 (x : Nat) : PADLEN (x % 16) = PADLEN x := by
  rw [PADLEN_eq, PADLEN_eq, Nat.mod_mod_of_dvd x (dvd_refl 16)]

theorem ghash_absorb_pad (ctx : ghash_ctx) (buf : List Nat) (hbuf : ctx.buffer = []) :
    ghash_add_pad (ghash_add ctx buf)
      = { ctx with
          Y := ghash_blocks ctx.gf128_mul ctx.H ctx.Y (splitBlocks (pad16 buf)).1,
          buffer := [] } := by
  rw [ghash_add_eq, hbuf, List.nil_append]
  obtain ⟨hrem, _, _⟩ := splitBlocks_facts buf.length buf (Nat.le_refl _)
  obtain ⟨hap1, hap2⟩ := splitBlocks_append buf.length buf
    (List.replicate (PADLEN buf.length) 0) (Nat.le_refl _)
  by_cases hempty : (splitBlocks buf).2 = []
  · have hmod : buf.length % 16 = 0 := by
      rw [← hrem, hempty]
      rfl
    have hpad0 : PADLEN buf.length = 0 := PADLEN_zero_of_mod _ hmod
    have hpp : pad16 buf = buf := by
      rw [pad16, hpad0, List.replicate_zero, List.append_nil]
    rw [ghash_add_pad]
    dsimp only
    rw [if_pos hempty, hpp, hempty]
  · have hmod : buf.length % 16 ≠ 0 := by
      intro h0
      apply hempty
      apply List.length_eq_zero.mp
      rw [hrem, h0]
    have hlenrem : (splitBlocks buf).2.length = buf.length % 16 := hrem
    have hpadval : PADLEN buf.length = 16 - (splitBlocks buf).2.length := by
      rw [hlenrem, PADLEN_eq]
      omega
    rw [ghash_add_pad]
    dsimp only
    rw [if_neg hempty]
    have hfull : ((splitBlocks buf).2 ++ List.replicate (PADLEN buf.length) 0).length = 16 := by
      rw [List.length_append, List.length_replicate, hlenrem, PADLEN_eq]
      have := Nat.mod_lt buf.length (show 0 < 16 by norm_num)
      omega
    have hsplit1 : splitBlocks ((splitBlocks buf).2 ++ List.replicate (PADLEN buf.length) 0)
        = ([(splitBlocks buf).2 ++ List.replicate (PADLEN buf.length) 0], []) := by
      rw [splitBlocks_eq, if_neg (by omega)]
      have hd : ((splitBlocks buf).2 ++ List.replicate (PADLEN buf.length) 0).drop 16 = [] := by
        apply List.eq_nil_of_length_eq_zero
        rw [List.length_drop, hfull]
      have ht : ((splitBlocks buf).2 ++ List.replicate (PADLEN buf.length) 0).take 16
          = (splitBlocks buf).2 ++ List.replicate (PADLEN buf.length) 0 :=
        List.take_of_length_le (by omega)
      rw [hd, ht, splitBlocks_small [] (by simp)]
    rw [pad16]
    rw [hap1, hsplit1]
    rw [ghash_blocks_append]
    rw [hpadval]
    dsimp only [ghash_blocks, List.foldl_cons, List.foldl_nil]
    rw [ghash_block]

theorem write64_be_mul_mod (a b : Nat) :
    write64_be ((a % 2 ^ 64) * b) = write64_be (a * b) := by
  rw [write64_be, write64_be]
  congr 1
  exact Nat.mod_mul_mod

theorem ghash_step_aad (fmul : Nat → Nat → Nat) (Hb header : List Nat) :
    ghash_add_aad (ghash_init fmul Hb) header
      = some ⟨beVal (Hb.take 16),
          ghash_blocks fmul (beVal (Hb.take 16)) 0 (splitBlocks header).1,
          (splitBlocks header).2,
          header.length % 2 ^ 64, 0, STATE_AAD, fmul⟩ := by
  rw [ghash_add_aad, if_pos (show (ghash_init fmul Hb).state = STATE_AAD from rfl),
    ghash_add_eq]
  simp [ghash_init]

theorem splitBlocks_full (l : List Nat) (h : l.length = 16) :
    splitBlocks l = ([l], []) := by
  rw [splitBlocks_eq, if_neg (by omega)]
  have hd : l.drop 16 = [] := by
    apply List.eq_nil_of_length_eq_zero
    rw [List.length_drop, h]
  have ht : l.take 16 = l := List.take_of_length_le (by omega)
  rw [hd, ht, splitBlocks_small [] (by simp)]

theorem ghash_step_cipher (fmul : Nat → Nat → Nat) (H' : Nat) (header cipher : List Nat)
    (la lc0 : Nat) :
    ghash_add_cipher
      ⟨H', ghash_blocks fmul H' 0 (splitBlocks header).1,
        (splitBlocks header).2, la, lc0, STATE_AAD, fmul⟩ cipher
      = some ⟨H',
          ghash_blocks fmul H'
            (ghash_blocks fmul H' 0 (splitBlocks (pad16 header)).1)
            (splitBlocks cipher).1,
          (splitBlocks cipher).2, la, (lc0 + cipher.length) % 2 ^ 64,
          STATE_CIPHER, fmul⟩ := by
  have hctx : (⟨H', ghash_blocks fmul H' 0 (splitBlocks header).1,
        (splitBlocks header).2, la, lc0, STATE_AAD, fmul⟩ : ghash_ctx)
      = ghash_add ⟨H', 0, [], la, lc0, STATE_AAD, fmul⟩ header := by
    rw [ghash_add_eq]
    dsimp only
    rw [List.nil_append]
  have hpad := ghash_absorb_pad ⟨H', 0, [], la, lc0, STATE_AAD, fmul⟩ header rfl
  dsimp only at hpad
  rw [ghash_add_cipher]
  rw [if_pos (show (⟨H', ghash_blocks fmul H' 0 (splitBlocks header).1,
        (splitBlocks header).2, la, lc0, STATE_AAD, fmul⟩ : ghash_ctx).state
      = STATE_AAD from rfl)]
  rw [hctx, hpad]
  rw [if_pos (show STATE_CIPHER = STATE_CIPHER from rfl)]
  congr 1
  rw [ghash_add_eq]
  dsimp only
  rw [List.nil_append]

theorem ghash_blocks_nil (fmul : Nat → Nat → Nat) (H Y : Nat) :
    ghash_blocks fmul H Y [] = Y := rfl

theorem ghash_step_final (fmul : Nat → Nat → Nat) (H' Y1 la lc : Nat) (cipher : List Nat) :
    ghash_final ⟨H', ghash_blocks fmul H' Y1 (splitBlocks cipher).1,
        (splitBlocks cipher).2, la, lc, STATE_CIPHER, fmul⟩
      = some (beBytes 16 (ghash_blocks fmul H'
            (ghash_blocks fmul H' Y1 (splitBlocks (pad16 cipher)).1)
            [write64_be (la * 8) ++ write64_be (lc * 8)]),
          ⟨H', ghash_blocks fmul H'
            (ghash_blocks fmul H' Y1 (splitBlocks (pad16 cipher)).1)
            [write64_be (la * 8) ++ write64_be (lc * 8)], [], la, lc,
            STATE_INVALID, fmul⟩) := by
  have hctx : (⟨H', ghash_blocks fmul H' Y1 (splitBlocks cipher).1,
        (splitBlocks cipher).2, la, lc, STATE_CIPHER, fmul⟩ : ghash_ctx)
      = ghash_add ⟨H', Y1, [], la, lc, STATE_CIPHER, fmul⟩ cipher := by
    rw [ghash_add_eq]
    dsimp only
    rw [List.nil_append]
  have hpad := ghash_absorb_pad ⟨H', Y1, [], la, lc, STATE_CIPHER, fmul⟩ cipher rfl
  dsimp only at hpad
  have hs1 : splitBlocks (write64_be (la * 8)) = ([], write64_be (la * 8)) :=
    splitBlocks_small _ (by rw [length_write64_be]; norm_num)
  have hs2 : splitBlocks (write64_be (la * 8) ++ write64_be (lc * 8))
      = ([write64_be (la * 8) ++ write64_be (lc * 8)], []) :=
    splitBlocks_full _ (by rw [List.length_append, length_write64_be, length_write64_be])
  rw [ghash_final, if_pos (Or.inr rfl)]
  rw [hctx, hpad]
  simp only [ghash_add_eq, List.nil_append, hs1, hs2, ghash_blocks_nil]
  simp only [if_true]

/-- The nonce-to-initial-counter-block derivation stated at the level of the
    spec: a 12-byte nonce gets the fixed suffix 00 00 00 01; any other
    length is GHASHed as ciphertext-phase input of an otherwise-empty hash
    (zero AAD bit length in the final length block). -/
def gcm_Y0_spec (fmul : Nat → Nat → Nat) (Hb nonce : List Nat) : List Nat :=
  if nonce.length = 12 then nonce ++ [0x00, 0x00, 0x00, 0x01]
  else beBytes 16 (ghash_blocks fmul (beVal (Hb.take 16)) 0
    ((splitBlocks (pad16 nonce)).1 ++ [write64_be 0 ++ write64_be (nonce.length * 8)]))

theorem pad16_nil : pad16 ([] : List Nat) = [] := by
  simp [pad16, PADLEN_eq]

theorem gcm_Y0_eq (fmul : Nat → Nat → Nat) (Hb nonce : List Nat) :
    gcm_Y0 fmul Hb nonce = some (gcm_Y0_spec fmul Hb nonce) := by
  by_cases h12 : nonce.length = 12
  · rw [gcm_Y0, gcm_Y0_spec, if_pos h12, if_pos h12]
  · rw [gcm_Y0, gcm_Y0_spec, if_neg h12, if_neg h12]
    have hinit : ghash_init fmul Hb
        = ⟨beVal (Hb.take 16),
            ghash_blocks fmul (beVal (Hb.take 16)) 0 (splitBlocks ([] : List Nat)).1,
            (splitBlocks ([] : List Nat)).2, 0, 0, STATE_AAD, fmul⟩ := by
      rw [splitBlocks_small [] (by simp)]
      rfl
    show (ghash_add_cipher (ghash_init fmul Hb) nonce).bind
        (fun gh => (ghash_final gh).bind (fun p => some p.1))
      = some (beBytes 16 (ghash_blocks fmul (beVal (Hb.take 16)) 0
          ((splitBlocks (pad16 nonce)).1 ++ [write64_be 0 ++ write64_be (nonce.length * 8)])))
    rw [hinit, ghash_step_cipher fmul (beVal (Hb.take 16)) [] nonce 0 0]
    rw [pad16_nil]
    dsimp only [Option.bind]
    have hsn : splitBlocks ([] : List Nat) = ([], []) := splitBlocks_small [] (by simp)
    rw [hsn]
    dsimp only [ghash_blocks_nil]
    rw [Nat.zero_add, ghash_step_final]
    dsimp only [Option.bind]
    rw [ghash_blocks_append, write64_be_mul_mod, Nat.zero_mul]

/-- The tag GCM computes (spec side): GHASH over padded AAD, padded
    ciphertext and the length block, masked with counter-keystream block
    zero and truncated to ntag bytes. -/
def gcm_tag_spec (E : List Nat → List Nat) (fmul : Nat → Nat → Nat)
    (header cipher nonce : List Nat) (ntag : Nat) : List Nat :=
  xor_bb (beBytes 16 (gcm_ghash_val fmul (E (List.replicate 16 0)) header cipher))
    (cf_ctr_cipher E (gcm_Y0_spec fmul (E (List.replicate 16 0)) nonce) 0
      (List.replicate 16 0)) ntag

theorem gcm_ghash_val_eq (fmul : Nat → Nat → Nat) (Hb header cipher : List Nat) :
    ghash_blocks fmul (beVal (Hb.take 16))
        (ghash_blocks fmul (beVal (Hb.take 16))
          (ghash_blocks fmul (beVal (Hb.take 16)) 0 (splitBlocks (pad16 header)).1)
          (splitBlocks (pad16 cipher)).1)
        [write64_be (header.length % 2 ^ 64 * 8)
          ++ write64_be ((0 + cipher.length) % 2 ^ 64 * 8)]
      = gcm_ghash_val fmul Hb header cipher := by
  rw [gcm_ghash_val, ghash_blocks_append, ghash_blocks_append, write64_be_mul_mod,
    Nat.zero_add, write64_be_mul_mod]

theorem cf_gcm_encrypt_eq (E : List Nat → List Nat) (fmul : Nat → Nat → Nat)
    (plain header nonce : List Nat) (ntag : Nat) (hn : 1 < ntag ∧ ntag ≤ 16) :
    cf_gcm_encrypt E fmul plain header nonce ntag
      = some (cf_ctr_cipher E (gcm_Y0_spec fmul (E (List.replicate 16 0)) nonce) 16 plain,
          gcm_tag_spec E fmul header
            (cf_ctr_cipher E (gcm_Y0_spec fmul (E (List.replicate 16 0)) nonce) 16 plain)
            nonce ntag) := by
  show (gcm_Y0 fmul (E (List.replicate 16 0)) nonce).bind (fun Y0 =>
      (ghash_add_aad (ghash_init fmul (E (List.replicate 16 0))) header).bind (fun gh =>
        (ghash_add_cipher gh (cf_ctr_cipher E Y0 16 plain)).bind (fun gh2 =>
          (ghash_final gh2).bind (fun p =>
            if 1 < ntag ∧ ntag ≤ 16 then
              some (cf_ctr_cipher E Y0 16 plain,
                xor_bb p.1 (cf_ctr_cipher E Y0 0 (List.replicate 16 0)) ntag)
            else none))))
    = _
  rw [gcm_Y0_eq]
  dsimp only [Option.bind]
  rw [ghash_step_aad]
  dsimp only [Option.bind]
  rw [ghash_step_cipher]
  dsimp only [Option.bind]
  rw [ghash_step_final]
  dsimp only [Option.bind]
  rw [if_pos hn]
  rw [gcm_ghash_val_eq]
  rfl

theorem cf_gcm_decrypt_eq (E : List Nat → List Nat) (fmul : Nat → Nat → Nat)
    (cipher header nonce tag : List Nat) (ntag : Nat) (hn : 1 < ntag ∧ ntag ≤ 16) :
    cf_gcm_decrypt E fmul cipher header nonce tag ntag
      = if mem_eq (gcm_tag_spec E fmul header cipher nonce ntag) tag ntag = 1
        then some (cf_ctr_cipher E (gcm_Y0_spec fmul (E (List.replicate 16 0)) nonce)
          16 cipher)
        else none := by
  show (gcm_Y0 fmul (E (List.replicate 16 0)) nonce).bind (fun Y0 =>
      (ghash_add_aad (ghash_init fmul (E (List.replicate 16 0))) header).bind (fun gh =>
        (ghash_add_cipher gh cipher).bind (fun gh2 =>
          (ghash_final gh2).bind (fun p =>
            if 1 < ntag ∧ ntag ≤ 16 then
              if mem_eq (xor_bb p.1 (cf_ctr_cipher E Y0 0 (List.replicate 16 0)) ntag)
                  tag ntag = 1 then
                some (cf_ctr_cipher E Y0 16 cipher)
              else none
            else none))))
    = _
  rw [gcm_Y0_eq]
  dsimp only [Option.bind]
  rw [ghash_step_aad]
  dsimp only [Option.bind]
  rw [ghash_step_cipher]
  dsimp only [Option.bind]
  rw [ghash_step_final]
  dsimp only [Option.bind]
  rw [if_pos hn]
  rw [gcm_ghash_val_eq]
  rfl

/- ---------------------------------------------------------------------
   Big-endian value/byte roundtrips and the zeroth counter block.
   --------------------------------------------------------------------- -/

theorem beVal_aux (l : List Nat) : ∀ acc : Nat,
    l.foldl (fun a b => a * 256 + b) acc
      = acc * 256 ^ l.length + l.foldl (fun a b => a * 256 + b) 0 := by
  induction l with
  | nil => intro acc; simp
  | cons b l ih =>
      intro acc
      rw [List.foldl_cons, List.foldl_cons, ih (acc * 256 + b), ih (0 * 256 + b),
        List.length_cons]
      ring

theorem beVal_eq (l : List Nat) : beVal l = lval l.reverse := by
  induction l with
  | nil => rfl
  | cons b l ih =>
      rw [beVal, List.foldl_cons, beVal_aux l (0 * 256 + b), List.reverse_cons, lval_append,
        lval_cons, lval_nil]
      rw [beVal] at ih
      rw [ih]
      simp [List.length_reverse]
      ring

theorem beVal_lt (l : List Nat) (hb : ∀ a ∈ l, a ≤ 255) : beVal l < 256 ^ l.length := by
  rw [beVal_eq]
  have := lval_lt_of_bytes l.reverse (fun a ha => hb a (List.mem_reverse.mp ha))
  rwa [List.length_reverse] at this

theorem digits_lval (l : List Nat) (hb : ∀ a ∈ l, a ≤ 255) :
    digits l.length (lval l) = l := by
  induction l with
  | nil => rfl
  | cons a l ih =>
      rw [List.length_cons, lval_cons, digits]
      have ha : a ≤ 255 := hb a (List.mem_cons_self a l)
      congr 1
      · rw [Nat.add_mul_mod_self_left]
        omega
      · rw [Nat.add_mul_div_left a (lval l) (by norm_num), Nat.div_eq_of_lt (by omega),
          Nat.zero_add]
        exact ih (fun x hx => hb x (List.mem_cons_of_mem a hx))

theorem beBytes_beVal (l : List Nat) (hb : ∀ a ∈ l, a ≤ 255) :
    beBytes l.length (beVal l) = l := by
  rw [beBytes, beVal_eq]
  have hlen : l.length = l.reverse.length := (List.length_reverse l).symm
  rw [hlen, digits_lval l.reverse (fun a ha => hb a (List.mem_reverse.mp ha)),
    List.reverse_reverse]

theorem ctr_block_zero (Y0 : List Nat) (hlen : Y0.length = 16) (hb : ∀ a ∈ Y0, a ≤ 255) :
    ctr_block Y0 0 = Y0 := by
  rw [ctr_block, Nat.add_zero]
  have hdlen : (Y0.drop 12).length = 4 := by
    rw [List.length_drop, hlen]
  have hdb : ∀ a ∈ Y0.drop 12, a ≤ 255 := fun a ha => hb a (List.mem_of_mem_drop ha)
  have hlt : beVal (Y0.drop 12) < 2 ^ 32 := by
    have := beVal_lt (Y0.drop 12) hdb
    rw [hdlen] at this
    norm_num at this
    omega
  rw [Nat.mod_eq_of_lt hlt]
  have hround := beBytes_beVal (Y0.drop 12) hdb
  rw [hdlen] at hround
  rw [hround, List.take_append_drop]

theorem e_Y0_eq (E : List Nat → List Nat) (Y0 : List Nat) (hlen : Y0.length = 16)
    (hb : ∀ a ∈ Y0, a ≤ 255) (hE : (E Y0).length = 16) :
    cf_ctr_cipher E Y0 0 (List.replicate 16 0) = E Y0 := by
  rw [cf_ctr_cipher, List.length_replicate]
  have hmap : ∀ i ∈ List.range 16,
      (List.replicate 16 0).getD i 0 ^^^ ctr_ks E Y0 (0 + i) = (E Y0).getD i 0 := by
    intro i hi
    have hi16 : i < 16 := List.mem_range.mp hi
    have hg : (List.replicate 16 (0 : Nat)).getD i 0 = 0 := by
      rw [List.getD_eq_getElem _ 0 (by simp [hi16]), List.getElem_replicate]
    rw [hg, Nat.zero_xor, Nat.zero_add, ctr_ks,
      Nat.div_eq_of_lt hi16, Nat.mod_eq_of_lt hi16, ctr_block_zero Y0 hlen hb]
  rw [List.map_congr_left hmap]
  conv_rhs => rw [← range_map_getD (E Y0)]
  rw [hE]

theorem ctr_cipher_involutive (E : List Nat → List Nat) (Y0 : List Nat) (off : Nat)
    (input : List Nat) :
    cf_ctr_cipher E Y0 off (cf_ctr_cipher E Y0 off input) = input := by
  have h : ∀ inp, cf_ctr_cipher E Y0 off inp = chachaXor (ctr_ks E Y0) off inp :=
    fun _ => rfl
  rw [h, h, chachaXor_involutive]

theorem gcm_Y0_spec_bytes (fmul : Nat → Nat → Nat) (Hb nonce : List Nat)
    (hn : ∀ a ∈ nonce, a ≤ 255) :
    (gcm_Y0_spec fmul Hb nonce).length = 16 ∧ ∀ a ∈ gcm_Y0_spec fmul Hb nonce, a ≤ 255 := by
  rw [gcm_Y0_spec]
  by_cases h12 : nonce.length = 12
  · rw [if_pos h12]
    constructor
    · rw [List.length_append, h12]
      rfl
    · intro a ha
      rcases List.mem_append.mp ha with h | h
      · exact hn a h
      · simp only [List.mem_cons, List.not_mem_nil, or_false] at h
        rcases h with rfl | rfl | rfl | rfl
        all_goals omega
  · rw [if_neg h12]
    constructor
    · rw [beBytes, List.length_reverse, length_digits]
    · intro a ha
      rw [beBytes] at ha
      exact digits_le _ _ a (List.mem_reverse.mp ha)

/- ---------------------------------------------------------------------
   Remaining support: list equality via getD, xor_bb facts, tag shape.
   --------------------------------------------------------------------- -/

theorem list_eq_iff_getD (a b : List Nat) (n : Nat) (ha : a.length = n) (hb : b.length = n) :
    a = b ↔ ∀ i, i < n → a.getD i 0 = b.getD i 0 := by
  constructor
  · intro h i _
    rw [h]
  · intro h
    apply List.ext_getElem (by omega)
    intro i h1 h2
    have := h i (by omega)
    rwa [List.getD_eq_getElem a 0 h1, List.getD_eq_getElem b 0 h2] at this

theorem getD_take (l : List Nat) (n i : Nat) (hi : i < n) :
    (l.take n).getD i 0 = l.getD i 0 := by
  by_cases h : i < l.length
  · rw [List.getD_eq_getElem _ 0 (by rw [List.length_take]; omega),
      List.getD_eq_getElem l 0 h]
    exact List.getElem_take _
  · rw [List.getD_eq_default _ 0 (by rw [List.length_take]; omega),
      List.getD_eq_default l 0 (by omega)]

theorem xor_bb_length (x y : List Nat) (n : Nat) : (xor_bb x y n).length = n := by
  rw [xor_bb]
  simp

theorem xor_bb_bytes (x y : List Nat) (n : Nat) (hx : ∀ a ∈ x, a ≤ 255)
    (hy : ∀ a ∈ y, a ≤ 255) : ∀ a ∈ xor_bb x y n, a ≤ 255 := by
  intro a ha
  rw [xor_bb] at ha
  obtain ⟨i, _, rfl⟩ := List.mem_map.mp ha
  have h1 : x.getD i 0 < 2 ^ 8 := by
    have := getD_le x i hx
    omega
  have h2 : y.getD i 0 < 2 ^ 8 := by
    have := getD_le y i hy
    omega
  have := Nat.xor_lt_two_pow h1 h2
  omega

theorem xor_bb_take (x y : List Nat) (n : Nat) (hn : n ≤ 16) :
    (xor_bb x y 16).take n = xor_bb x y n := by
  rw [xor_bb, xor_bb, ← List.map_take, List.take_range]
  rw [Nat.min_eq_left hn]

theorem beBytes16_bytes (v : Nat) :
    (beBytes 16 v).length = 16 ∧ ∀ a ∈ beBytes 16 v, a ≤ 255 := by
  constructor
  · rw [beBytes, List.length_reverse, length_digits]
  · intro a ha
    rw [beBytes] at ha
    exact digits_le _ _ a (List.mem_reverse.mp ha)

theorem cf_gcm_encrypt_none (E : List Nat → List Nat) (fmul : Nat → Nat → Nat)
    (plain header nonce : List Nat) (ntag : Nat) (hn : ¬ (1 < ntag ∧ ntag ≤ 16)) :
    cf_gcm_encrypt E fmul plain header nonce ntag = none := by
  show (gcm_Y0 fmul (E (List.replicate 16 0)) nonce).bind (fun Y0 =>
      (ghash_add_aad (ghash_init fmul (E (List.replicate 16 0))) header).bind (fun gh =>
        (ghash_add_cipher gh (cf_ctr_cipher E Y0 16 plain)).bind (fun gh2 =>
          (ghash_final gh2).bind (fun p =>
            if 1 < ntag ∧ ntag ≤ 16 then
              some (cf_ctr_cipher E Y0 16 plain,
                xor_bb p.1 (cf_ctr_cipher E Y0 0 (List.replicate 16 0)) ntag)
            else none))))
    = none
  rw [gcm_Y0_eq]
  dsimp only [Option.bind]
  rw [ghash_step_aad]
  dsimp only [Option.bind]
  rw [ghash_step_cipher]
  dsimp only [Option.bind]
  rw [ghash_step_final]
  dsimp only [Option.bind]
  rw [if_neg hn]

/- ---------------------------------------------------------------------
   ChaCha20-Poly1305 process: decrypt-path characterization.
   --------------------------------------------------------------------- -/

theorem chachaXor_bytes (ks : Nat → Nat) (off : Nat) (input : List Nat)
    (hks : ∀ i, ks i ≤ 255) (hb : ∀ a ∈ input, a ≤ 255) :
    ∀ a ∈ chachaXor ks off input, a ≤ 255 := by
  intro a ha
  rw [chachaXor] at ha
  obtain ⟨i, _, rfl⟩ := List.mem_map.mp ha
  have h1 : input.getD i 0 < 2 ^ 8 := by
    have := getD_le input i hb
    omega
  have h2 : ks (off + i) < 2 ^ 8 := by
    have := hks (off + i)
    omega
  have := Nat.xor_lt_two_pow h1 h2
  omega

theorem transcript_bytes (header cipher : List Nat) (hh : ∀ a ∈ header, a ≤ 255)
    (hc : ∀ a ∈ cipher, a ≤ 255) :
    ∀ a ∈ chachapoly_transcript header cipher, a ≤ 255 := by
  intro a ha
  rw [chachapoly_transcript] at ha
  rcases List.mem_append.mp ha with h | h
  · rcases List.mem_append.mp h with h | h
    · rcases List.mem_append.mp h with h | h
      · rcases List.mem_append.mp h with h | h
        · rcases List.mem_append.mp h with h | h
          · exact hh a h
          · rw [List.eq_of_mem_replicate h]
            omega
        · exact hc a h
      · rw [List.eq_of_mem_replicate h]
        omega
    · exact digits_le _ _ a h
  · exact digits_le _ _ a h

theorem process_mac_ctx_inv (ks : Nat → Nat) (header input : List Nat) (mode : Nat)
    (hks : ∀ i, ks i ≤ 255) (hh : ∀ a ∈ header, a ≤ 255) (hi : ∀ a ∈ input, a ≤ 255) :
    polyInv (process_mac ks header input mode) := by
  have hkb : ∀ a ∈ chachaXor ks 0 (List.replicate 32 0), a ≤ 255 :=
    chachaXor_bytes ks 0 _ hks (fun a ha => by rw [List.eq_of_mem_replicate ha]; decide)
  have hklen : (chachaXor ks 0 (List.replicate 32 0)).length = 32 := by
    rw [chachaXor_length, List.length_replicate]
  obtain ⟨hinv0, _, _⟩ := polyInv_init ((chachaXor ks 0 (List.replicate 32 0)).take 16)
    ((chachaXor ks 0 (List.replicate 32 0)).drop 16)
    (fun a ha => hkb a (List.mem_of_mem_take ha))
    (fun a ha => hkb a (List.mem_of_mem_drop ha))
    (by rw [List.length_drop, hklen])
  rw [process_mac_eq]
  have hcipherb : ∀ a ∈ (if mode = ENCRYPT then chachaXor ks 64 input else input), a ≤ 255 := by
    by_cases hmode : mode = ENCRYPT
    · rw [if_pos hmode]
      exact chachaXor_bytes ks 64 input hks hi
    · rw [if_neg hmode]
      exact hi
  exact (cf_poly1305_update_spec _ _ hinv0 (transcript_bytes _ _ hh hcipherb)).1

theorem checktag_shape (ks : Nat → Nat) (header input : List Nat) (mode : Nat)
    (hks : ∀ i, ks i ≤ 255) (hh : ∀ a ∈ header, a ≤ 255) (hi : ∀ a ∈ input, a ≤ 255) :
    (cf_poly1305_finish (process_mac ks header input mode)).length = 16 ∧
    ∀ a ∈ cf_poly1305_finish (process_mac ks header input mode), a ≤ 255 := by
  have hinv := process_mac_ctx_inv ks header input mode hks hh hi
  rw [cf_poly1305_finish_spec _ hinv]
  exact ⟨length_digits _ _, digits_le _ _⟩

theorem process_decrypt_eq (ks : Nat → Nat) (header cipher tag : List Nat)
    (hks : ∀ i, ks i ≤ 255) (hh : ∀ a ∈ header, a ≤ 255) (hc : ∀ a ∈ cipher, a ≤ 255)
    (ht : ∀ a ∈ tag, a ≤ 255) (htlen : tag.length = 16) :
    process ks header cipher DECRYPT tag
      = if cf_poly1305_finish (cf_poly1305_update (cf_poly1305_init
            ((chachaXor ks 0 (List.replicate 32 0)).take 16)
            ((chachaXor ks 0 (List.replicate 32 0)).drop 16))
            (chachapoly_transcript header cipher)) = tag
        then (SUCCESS, chachaXor ks 64 cipher, tag)
        else (FAILURE, List.replicate cipher.length 0, tag) := by
  have hmac : process_mac ks header cipher DECRYPT
      = cf_poly1305_update (cf_poly1305_init
          ((chachaXor ks 0 (List.replicate 32 0)).take 16)
          ((chachaXor ks 0 (List.replicate 32 0)).drop 16))
          (chachapoly_transcript header cipher) := by
    rw [process_mac_eq, if_neg (by decide : ¬ (DECRYPT = ENCRYPT))]
  obtain ⟨hlen16, hbytes⟩ := checktag_shape ks header cipher DECRYPT hks hh hc
  rw [process, if_neg (by decide : ¬ (DECRYPT = ENCRYPT)), hmac]
  rw [hmac] at hlen16 hbytes
  have hiff : mem_eq (cf_poly1305_finish (cf_poly1305_update (cf_poly1305_init
        ((chachaXor ks 0 (List.replicate 32 0)).take 16)
        ((chachaXor ks 0 (List.replicate 32 0)).drop 16))
        (chachapoly_transcript header cipher))) tag 16 = 1
      ↔ cf_poly1305_finish (cf_poly1305_update (cf_poly1305_init
        ((chachaXor ks 0 (List.replicate 32 0)).take 16)
        ((chachaXor ks 0 (List.replicate 32 0)).drop 16))
        (chachapoly_transcript header cipher)) = tag := by
    rw [mem_eq_one_iff _ _ 16 hbytes ht, list_eq_iff_getD _ _ 16 hlen16 htlen]
  by_cases heq : cf_poly1305_finish (cf_poly1305_update (cf_poly1305_init
      ((chachaXor ks 0 (List.replicate 32 0)).take 16)
      ((chachaXor ks 0 (List.replicate 32 0)).drop 16))
      (chachapoly_transcript header cipher)) = tag
  · rw [if_pos (hiff.mpr heq), if_pos heq]
  · rw [if_neg (fun h => heq (hiff.mp h)), if_neg heq]

/- ---------------------------------------------------------------------
   Reachable Poly1305 states, block values, GHASH state bookkeeping.
   --------------------------------------------------------------------- -/

theorem foldl_update_inv (bufs : List (List Nat)) : ∀ ctx : cf_poly1305, polyInv ctx →
    (∀ b ∈ bufs, ∀ a ∈ b, a ≤ 255) →
    polyInv (bufs.foldl cf_poly1305_update ctx) ∧
    (bufs.foldl cf_poly1305_update ctx).s = ctx.s := by
  induction bufs with
  | nil => intro ctx h _; exact ⟨h, rfl⟩
  | cons b bs ih =>
      intro ctx hinv hb
      obtain ⟨h1, _, h3⟩ := cf_poly1305_update_spec ctx b hinv (hb b (List.mem_cons_self b bs))
      rw [List.foldl_cons]
      obtain ⟨i1, i2⟩ := ih (cf_poly1305_update ctx b) h1
        (fun bx hbx => hb bx (List.mem_cons_of_mem b hbx))
      exact ⟨i1, by rw [i2, h3]⟩

theorem lval_whole_block_c (buf : List Nat) (hlen : buf.length = 16) :
    lval (poly1305_whole_block_c buf) = lval buf + 2 ^ 128 := by
  rw [poly1305_whole_block_c]
  have hr : (List.range 16).map (fun i => buf.getD i 0) = buf := by
    conv_lhs => rw [← hlen]
    exact range_map_getD buf
  rw [hr, lval_append, hlen, lval_cons, lval_nil]
  norm_num

theorem last_block_c_form (pb : List Nat) (hlen : pb.length < 16) :
    poly1305_last_block_c pb = pb ++ 1 :: List.replicate (16 - pb.length) 0 := by
  have hlh : (poly1305_last_block_c pb).length = 17 := by
    rw [poly1305_last_block_c]
    simp
  have hrh : (pb ++ 1 :: List.replicate (16 - pb.length) 0).length = 17 := by
    rw [List.length_append, List.length_cons, List.length_replicate]
    omega
  rw [list_eq_iff_getD _ _ 17 hlh hrh]
  intro i hi
  rw [poly1305_last_block_c, getD_map_range _ 17 i hi]
  by_cases h1 : i < pb.length
  · rw [if_pos h1, List.getD_append pb _ 0 i h1]
  · rw [if_neg h1, List.getD_append_right pb _ 0 i (by omega)]
    by_cases h2 : i = pb.length
    · rw [if_pos h2, h2, Nat.sub_self]
      rfl
    · rw [if_neg h2]
      have hstep : i - pb.length = (i - pb.length - 1) + 1 := by omega
      rw [hstep]
      show (0 : Nat) = (List.replicate (16 - pb.length) 0).getD (i - pb.length - 1) 0
      rw [List.getD_eq_getElem _ 0 (by rw [List.length_replicate]; omega),
        List.getElem_replicate]

theorem lval_last_block_c (pb : List Nat) (hlen : pb.length < 16) :
    lval (poly1305_last_block_c pb) = lval pb + 256 ^ pb.length := by
  rw [last_block_c_form pb hlen, lval_append, lval_cons, lval_replicate_zero]
  ring

theorem ghash_add_state (ctx : ghash_ctx) (buf : List Nat) :
    (ghash_add ctx buf).state = ctx.state ∧
    (ghash_add ctx buf).len_aad = ctx.len_aad ∧
    (ghash_add ctx buf).len_cipher = ctx.len_cipher := by
  rw [ghash_add, foldl_ghash_block_eq]
  exact ⟨rfl, rfl, rfl⟩

theorem ghash_add_pad_state (ctx : ghash_ctx) :
    (ghash_add_pad ctx).state = ctx.state ∧
    (ghash_add_pad ctx).len_aad = ctx.len_aad ∧
    (ghash_add_pad ctx).len_cipher = ctx.len_cipher := by
  rw [ghash_add_pad]
  by_cases h : ctx.buffer = []
  · rw [if_pos h]
    exact ⟨rfl, rfl, rfl⟩
  · rw [if_neg h]
    exact ⟨rfl, rfl, rfl⟩

/- ---------------------------------------------------------------------
   The claims.
   --------------------------------------------------------------------- -/

/-- C1: ChaCha20-Poly1305 decrypt computes the Poly1305 tag over the
    received ciphertext (the MAC transcript holds the ciphertext itself,
    never a decryption of it) and compares it against the supplied tag with
    the constant-time mem_eq before any decryption arithmetic; only on a
    match does the keystream get applied to the ciphertext, and on a
    mismatch the call returns FAILURE with the output buffer wiped to
    zeroes, so no decrypted byte is ever emitted. -/
theorem claim_C1 (ks : Nat → Nat) (header cipher tag : List Nat)
    (hks : ∀ i, ks i ≤ 255) (hh : ∀ a ∈ header, a ≤ 255) (hc : ∀ a ∈ cipher, a ≤ 255)
    (ht : ∀ a ∈ tag, a ≤ 255) (htlen : tag.length = 16) :
    cf_chacha20poly1305_decrypt ks header cipher tag
      = if cf_poly1305_finish (cf_poly1305_update (cf_poly1305_init
            ((chachaXor ks 0 (List.replicate 32 0)).take 16)
            ((chachaXor ks 0 (List.replicate 32 0)).drop 16))
            (chachapoly_transcript header cipher)) = tag
        then (SUCCESS, chachaXor ks 64 cipher)
        else (FAILURE, List.replicate cipher.length 0) := by
  rw [cf_chacha20poly1305_decrypt,
    process_decrypt_eq ks header cipher tag hks hh hc ht htlen]
  by_cases h : cf_poly1305_finish (cf_poly1305_update (cf_poly1305_init
      ((chachaXor ks 0 (List.replicate 32 0)).take 16)
      ((chachaXor ks 0 (List.replicate 32 0)).drop 16))
      (chachapoly_transcript header cipher)) = tag
  · rw [if_pos h, if_pos h]
  · rw [if_neg h, if_neg h]

theorem claim_C1_witness :
    (∀ a ∈ List.replicate 16 0, a ≤ 255) ∧ (List.replicate 16 (0 : Nat)).length = 16 ∧
    cf_chacha20poly1305_decrypt (fun _ => 0) [] [] (List.replicate 16 0)
      = if cf_poly1305_finish (cf_poly1305_update (cf_poly1305_init
            ((chachaXor (fun _ => 0) 0 (List.replicate 32 0)).take 16)
            ((chachaXor (fun _ => 0) 0 (List.replicate 32 0)).drop 16))
            (chachapoly_transcript [] [])) = List.replicate 16 0
        then (SUCCESS, chachaXor (fun _ => 0) 64 [])
        else (FAILURE, List.replicate (List.length ([] : List Nat)) 0) :=
  ⟨by decide, by decide,
    claim_C1 (fun _ => 0) [] [] (List.replicate 16 0) (fun _ => Nat.zero_le 255)
      (by decide) (by decide) (by decide) (by decide)⟩

/-- C2: GCM decrypt, for 1 < ntag <= 16, computes the tag by GHASHing the
    associated data and then the still-encrypted ciphertext, finalizing,
    masking with counter-keystream block zero (e_Y0) and truncating to ntag
    bytes, and compares it against the supplied tag with the constant-time
    mem_eq before the counter-mode keystream touches the ciphertext: on a
    mismatch it returns none (no plaintext is produced), on a match it
    returns the decryption. -/
theorem claim_C2 (E : List Nat → List Nat) (fmul : Nat → Nat → Nat)
    (cipher header nonce tag : List Nat) (ntag : Nat) (hn : 1 < ntag ∧ ntag ≤ 16) :
    cf_gcm_decrypt E fmul cipher header nonce tag ntag
      = if mem_eq (gcm_tag_spec E fmul header cipher nonce ntag) tag ntag = 1
        then some (cf_ctr_cipher E (gcm_Y0_spec fmul (E (List.replicate 16 0)) nonce)
          16 cipher)
        else none :=
  cf_gcm_decrypt_eq E fmul cipher header nonce tag ntag hn

theorem claim_C2_witness :
    (1 < 16 ∧ 16 ≤ 16) ∧
    cf_gcm_decrypt (fun _ => List.replicate 16 0) (fun _ _ => 0) [] [] [] [] 16
      = if mem_eq (gcm_tag_spec (fun _ => List.replicate 16 0) (fun _ _ => 0) [] [] [] 16)
            [] 16 = 1
        then some (cf_ctr_cipher (fun _ => List.replicate 16 0)
          (gcm_Y0_spec (fun _ _ => 0)
            ((fun _ => List.replicate 16 0) (List.replicate 16 0)) []) 16 [])
        else none :=
  ⟨by decide,
    claim_C2 (fun _ => List.replicate 16 0) (fun _ _ => 0) [] [] [] [] 16 (by decide)⟩

/-- C3: AEAD round trips.  ChaCha20-Poly1305: decrypting the ciphertext and
    tag that encrypt produced, under the same keystream and associated
    data, succeeds and returns the original plaintext.  GCM: for any tag
    length 1 < ntag <= 16 and any block-cipher capability, whatever
    ciphertext/tag pair encrypt returns decrypts back to the original
    plaintext. -/
theorem claim_C3 (ks : Nat → Nat) (E : List Nat → List Nat) (fmul : Nat → Nat → Nat)
    (header plain nonce : List Nat) (ntag : Nat)
    (hks : ∀ i, ks i ≤ 255) (hh : ∀ a ∈ header, a ≤ 255) (hp : ∀ a ∈ plain, a ≤ 255)
    (hn : 1 < ntag ∧ ntag ≤ 16) :
    cf_chacha20poly1305_decrypt ks header
        (cf_chacha20poly1305_encrypt ks header plain).1
        (cf_chacha20poly1305_encrypt ks header plain).2
      = (SUCCESS, plain)
    ∧ ∀ cipher tagp, cf_gcm_encrypt E fmul plain header nonce ntag = some (cipher, tagp) →
        cf_gcm_decrypt E fmul cipher header nonce tagp ntag = some plain := by
  constructor
  · have henc : cf_chacha20poly1305_encrypt ks header plain
        = (chachaXor ks 64 plain,
           cf_poly1305_finish (process_mac ks header plain ENCRYPT)) := by
      rw [cf_chacha20poly1305_encrypt, process, if_pos rfl]
    obtain ⟨htlen, htb⟩ := checktag_shape ks header plain ENCRYPT hks hh hp
    have hcb := chachaXor_bytes ks 64 plain hks hp
    rw [henc]
    dsimp only
    rw [cf_chacha20poly1305_decrypt,
      process_decrypt_eq ks header (chachaXor ks 64 plain)
        (cf_poly1305_finish (process_mac ks header plain ENCRYPT)) hks hh hcb htb htlen]
    have hmacE : process_mac ks header plain ENCRYPT
        = cf_poly1305_update (cf_poly1305_init
            ((chachaXor ks 0 (List.replicate 32 0)).take 16)
            ((chachaXor ks 0 (List.replicate 32 0)).drop 16))
            (chachapoly_transcript header (chachaXor ks 64 plain)) := by
      rw [process_mac_eq, if_pos rfl]
    rw [hmacE, if_pos rfl]
    dsimp only
    rw [chachaXor_involutive]
  · intro cipher tagp henc
    rw [cf_gcm_encrypt_eq E fmul plain header nonce ntag hn] at henc
    simp only [Option.some.injEq, Prod.mk.injEq] at henc
    obtain ⟨rfl, rfl⟩ := henc
    rw [cf_gcm_decrypt_eq E fmul _ header nonce _ ntag hn, if_pos (mem_eq_self _ _),
      ctr_cipher_involutive]

theorem claim_C3_witness :
    (∀ a ∈ ([] : List Nat), a ≤ 255) ∧ (1 < 16 ∧ 16 ≤ 16) ∧
    (cf_chacha20poly1305_decrypt (fun _ => 0) []
        (cf_chacha20poly1305_encrypt (fun _ => 0) [] []).1
        (cf_chacha20poly1305_encrypt (fun _ => 0) [] []).2
      = (SUCCESS, [])
    ∧ ∀ cipher tagp,
        cf_gcm_encrypt (fun _ => List.replicate 16 0) (fun _ _ => 0) [] []
            (List.replicate 12 0) 16 = some (cipher, tagp) →
        cf_gcm_decrypt (fun _ => List.replicate 16 0) (fun _ _ => 0) cipher []
            (List.replicate 12 0) tagp 16 = some []) :=
  ⟨by decide, by decide,
    claim_C3 (fun _ => 0) (fun _ => List.replicate 16 0) (fun _ _ => 0) [] []
      (List.replicate 12 0) 16 (fun _ => Nat.zero_le 255) (by decide) (by decide)
      (by decide)⟩

/-- C4: Poly1305 finalize, on every context reachable from init by a
    sequence of updates, absorbs any pending partial block via
    poly1305_last_block, fully reduces the accumulator modulo
    p1305 = 2^130 - 5 (the full reduction subtracts 2^130 - 5 in the same
    17-limb radix-2^8 arithmetic and constant-time selects on the top bits
    of the high limb via mask_u32), adds the pad s, and emits the low 128
    bits as the 16-byte tag: the tag equals
    ((h mod (2^130 - 5)) + s) mod 2^128 for the accumulated value h. -/
theorem claim_C4 (r s : List Nat) (bufs : List (List Nat))
    (hr : ∀ a ∈ r, a ≤ 255) (hs : ∀ a ∈ s, a ≤ 255) (hslen : s.length = 16)
    (hb : ∀ b ∈ bufs, ∀ a ∈ b, a ≤ 255) :
    cf_poly1305_finish (bufs.foldl cf_poly1305_update (cf_poly1305_init r s))
      = digits 16
          ((lval (if (bufs.foldl cf_poly1305_update (cf_poly1305_init r s)).pbuf = []
              then bufs.foldl cf_poly1305_update (cf_poly1305_init r s)
              else poly1305_last_block
                (bufs.foldl cf_poly1305_update (cf_poly1305_init r s))).h % p1305
            + lval s) % 2 ^ 128) := by
  obtain ⟨hinv0, hs0, _⟩ := polyInv_init r s hr hs hslen
  obtain ⟨hinv, hsEq⟩ := foldl_update_inv bufs _ hinv0 hb
  rw [cf_poly1305_finish_spec _ hinv, hsEq, hs0]

theorem claim_C4_witness :
    (∀ a ∈ List.replicate 16 0, a ≤ 255) ∧ (List.replicate 16 (0 : Nat)).length = 16 ∧
    cf_poly1305_finish
        ([[1, 2, 3]].foldl cf_poly1305_update
          (cf_poly1305_init [] (List.replicate 16 0)))
      = digits 16
          ((lval (if ([[1, 2, 3]].foldl cf_poly1305_update
                (cf_poly1305_init [] (List.replicate 16 0))).pbuf = []
              then [[1, 2, 3]].foldl cf_poly1305_update
                (cf_poly1305_init [] (List.replicate 16 0))
              else poly1305_last_block
                ([[1, 2, 3]].foldl cf_poly1305_update
                  (cf_poly1305_init [] (List.replicate 16 0)))).h % p1305
            + lval (List.replicate 16 0)) % 2 ^ 128) :=
  ⟨by decide, by decide,
    claim_C4 [] (List.replicate 16 0) [[1, 2, 3]] (by decide) (by decide) (by decide)
      (by decide)⟩

/-- C5: block marker placement.  A full 16-byte block becomes the 17-limb
    block of its bytes with marker limb 1 at index 16 (so its value is the
    block value plus 2^128); a final short block of n bytes (0 < n < 16)
    gets the marker 1 at limb index n with every higher limb up to 16 zero
    (value: block value plus 256^n); poly1305_whole_block and
    poly1305_last_block feed exactly these blocks to poly1305_block, which
    adds the block into the accumulator and multiplies by r, congruent to
    (h + c) * r modulo 2^130 - 5. -/
theorem claim_C5 (ctx : cf_poly1305) (buf pb : List Nat) (hinv : polyInv ctx)
    (hblen : buf.length = 16) (hbb : ∀ a ∈ buf, a ≤ 255)
    (_hplen0 : 0 < pb.length) (hplen : pb.length < 16) (hpbb : ∀ a ∈ pb, a ≤ 255) :
    (poly1305_whole_block_c buf).length = 17
    ∧ (poly1305_whole_block_c buf).getD 16 0 = 1
    ∧ lval (poly1305_whole_block_c buf) = lval buf + 2 ^ 128
    ∧ (poly1305_last_block_c pb).length = 17
    ∧ (poly1305_last_block_c pb).getD pb.length 0 = 1
    ∧ (∀ i, pb.length < i → i ≤ 16 → (poly1305_last_block_c pb).getD i 0 = 0)
    ∧ (∀ i, i < pb.length → (poly1305_last_block_c pb).getD i 0 = pb.getD i 0)
    ∧ lval (poly1305_last_block_c pb) = lval pb + 256 ^ pb.length
    ∧ poly1305_whole_block ctx buf = poly1305_block ctx (poly1305_whole_block_c buf)
    ∧ poly1305_last_block ctx = poly1305_block ctx (poly1305_last_block_c ctx.pbuf)
    ∧ (lval (poly1305_block ctx (poly1305_whole_block_c buf)).h : ZMod p1305)
        = ((lval ctx.h + lval (poly1305_whole_block_c buf) : Nat) : ZMod p1305)
          * ((lval ctx.r : Nat) : ZMod p1305) := by
  obtain ⟨hw1, hw2, hw3, _⟩ := whole_block_c_facts buf hbb
  obtain ⟨hl1, _, _, hl4, hl5, hl6⟩ := last_block_c_facts pb hplen hpbb
  obtain ⟨_, _, _, _, hbv⟩ := poly1305_block_spec ctx (poly1305_whole_block_c buf)
    hinv hw1 hw2 (by omega)
  exact ⟨hw1, hw3, lval_whole_block_c buf hblen, hl1, hl4, hl6, hl5,
    lval_last_block_c pb hplen, rfl, rfl, hbv⟩

theorem claim_C5_witness :
    polyInv (cf_poly1305_init [] (List.replicate 16 0)) ∧
    (List.replicate 16 (5 : Nat)).length = 16 ∧ (0 : Nat) < [7].length ∧
    ((poly1305_whole_block_c (List.replicate 16 5)).length = 17
    ∧ (poly1305_whole_block_c (List.replicate 16 5)).getD 16 0 = 1
    ∧ lval (poly1305_whole_block_c (List.replicate 16 5))
        = lval (List.replicate 16 5) + 2 ^ 128
    ∧ (poly1305_last_block_c [7]).length = 17
    ∧ (poly1305_last_block_c [7]).getD [7].length 0 = 1
    ∧ (∀ i, [7].length < i → i ≤ 16 → (poly1305_last_block_c [7]).getD i 0 = 0)
    ∧ (∀ i, i < [7].length → (poly1305_last_block_c [7]).getD i 0 = [7].getD i 0)
    ∧ lval (poly1305_last_block_c [7]) = lval [7] + 256 ^ [7].length
    ∧ poly1305_whole_block (cf_poly1305_init [] (List.replicate 16 0))
          (List.replicate 16 5)
        = poly1305_block (cf_poly1305_init [] (List.replicate 16 0))
            (poly1305_whole_block_c (List.replicate 16 5))
    ∧ poly1305_last_block (cf_poly1305_init [] (List.replicate 16 0))
        = poly1305_block (cf_poly1305_init [] (List.replicate 16 0))
            (poly1305_last_block_c (cf_poly1305_init [] (List.replicate 16 0)).pbuf)
    ∧ (lval (poly1305_block (cf_poly1305_init [] (List.replicate 16 0))
          (poly1305_whole_block_c (List.replicate 16 5))).h : ZMod p1305)
        = ((lval (cf_poly1305_init [] (List.replicate 16 0)).h
              + lval (poly1305_whole_block_c (List.replicate 16 5)) : Nat) : ZMod p1305)
          * ((lval (cf_poly1305_init [] (List.replicate 16 0)).r : Nat) : ZMod p1305)) :=
  ⟨by unfold polyInv; decide, by decide, by decide,
    claim_C5 (cf_poly1305_init [] (List.replicate 16 0)) (List.replicate 16 5) [7]
      (by unfold polyInv; decide) (by decide) (by decide) (by decide) (by decide)
      (by decide)⟩

/-- C6: the byte sequence fed to Poly1305 is exactly AAD, zero padding to
    the next 16-byte boundary (PADLEN is zero on a multiple of 16), the
    ciphertext, zero padding to the next 16-byte boundary, the 8-byte
    little-endian AAD byte length and the 8-byte little-endian ciphertext
    byte length; in ENCRYPT mode the ciphertext fed is the keystream XOR of
    the plaintext (never the plaintext itself), in DECRYPT mode the
    received input. -/
theorem claim_C6 (ks : Nat → Nat) (header input : List Nat) :
    process_mac ks header input ENCRYPT
      = cf_poly1305_update
          (cf_poly1305_init ((chachaXor ks 0 (List.replicate 32 0)).take 16)
            ((chachaXor ks 0 (List.replicate 32 0)).drop 16))
          (header ++ List.replicate (PADLEN header.length) 0
            ++ chachaXor ks 64 input
            ++ List.replicate (PADLEN (chachaXor ks 64 input).length) 0
            ++ write64_le header.length
            ++ write64_le (chachaXor ks 64 input).length)
    ∧ process_mac ks header input DECRYPT
      = cf_poly1305_update
          (cf_poly1305_init ((chachaXor ks 0 (List.replicate 32 0)).take 16)
            ((chachaXor ks 0 (List.replicate 32 0)).drop 16))
          (header ++ List.replicate (PADLEN header.length) 0
            ++ input ++ List.replicate (PADLEN input.length) 0
            ++ write64_le header.length ++ write64_le input.length) := by
  constructor
  · rw [process_mac_eq, if_pos rfl, chachapoly_transcript]
  · rw [process_mac_eq, if_neg (by decide : ¬ (DECRYPT = ENCRYPT)), chachapoly_transcript]

/-- C7: the initial counter block derivation gcm_Y0 shared by
    cf_gcm_encrypt and cf_gcm_decrypt: a nonce of exactly 12 bytes gets
    the fixed 4-byte suffix 00 00 00 01; a nonce of any other length is
    GHASHed under H as ciphertext-phase input of an otherwise-empty hash
    (zero AAD length in the final length block), and the derivation never
    fails. -/
theorem claim_C7 (fmul : Nat → Nat → Nat) (Hb nonce : List Nat) :
    gcm_Y0 fmul Hb nonce
      = some (if nonce.length = 12 then nonce ++ [0x00, 0x00, 0x00, 0x01]
          else beBytes 16 (ghash_blocks fmul (beVal (Hb.take 16)) 0
            ((splitBlocks (pad16 nonce)).1
              ++ [write64_be 0 ++ write64_be (nonce.length * 8)]))) := by
  rw [gcm_Y0_eq, gcm_Y0_spec]

theorem ghash_final_state (ctx : ghash_ctx) (p : List Nat × ghash_ctx)
    (hreach : ctx.state = STATE_AAD ∨ ctx.state = STATE_CIPHER ∨ ctx.state = STATE_INVALID)
    (h : ghash_final ctx = some p) : p.2.state = STATE_INVALID := by
  rw [ghash_final] at h
  by_cases hc : ctx.state = STATE_AAD ∨ ctx.state = STATE_CIPHER
  · rw [if_pos hc] at h
    split at h
    · obtain rfl := Option.some.inj h
      show (ghash_add (ghash_add _ _) _).state = STATE_INVALID
      rw [(ghash_add_state _ _).1, (ghash_add_state _ _).1]
    · exact absurd h Option.noConfusion
  · have hI : ctx.state = STATE_INVALID := by
      rcases hreach with h1 | h1 | h1
      · exact absurd (Or.inl h1) hc
      · exact absurd (Or.inr h1) hc
      · exact h1
    rw [if_neg hc] at h
    split at h
    · obtain rfl := Option.some.inj h
      show (ghash_add (ghash_add _ _) _).state = STATE_INVALID
      rw [(ghash_add_state _ _).1, (ghash_add_state _ _).1]
      exact hI
    · exact absurd h Option.noConfusion

/-- C8: GHASH phase monotonicity.  ghash_add_aad is accepted exactly in
    the AAD phase and leaves the phase at AAD; ghash_add_cipher is
    accepted exactly in the AAD or CIPHER phase and always leaves it at
    CIPHER, and on its first call (AAD phase) it zero-pads the buffered
    associated data to a block boundary (ghash_add_pad) before switching
    the phase; an INVALID context rejects both input operations (the
    assertions fire, modelled as none); ghash_final leaves every reachable
    context at INVALID.  The phase therefore only ever moves
    AAD to CIPHER to INVALID, never backwards. -/
theorem claim_C8 (ctx : ghash_ctx) (buf : List Nat) :
    ((ghash_add_aad ctx buf).isSome ↔ ctx.state = STATE_AAD)
    ∧ (∀ c, ghash_add_aad ctx buf = some c → c.state = STATE_AAD)
    ∧ ((ghash_add_cipher ctx buf).isSome
        ↔ (ctx.state = STATE_AAD ∨ ctx.state = STATE_CIPHER))
    ∧ (∀ c, ghash_add_cipher ctx buf = some c → c.state = STATE_CIPHER)
    ∧ (ctx.state = STATE_AAD →
        ghash_add_cipher ctx buf
          = some (ghash_add
              { ghash_add_pad ctx with
                  state := STATE_CIPHER,
                  len_cipher := ((ghash_add_pad ctx).len_cipher + buf.length) % 2 ^ 64 }
              buf))
    ∧ (ctx.state = STATE_INVALID →
        ghash_add_aad ctx buf = none ∧ ghash_add_cipher ctx buf = none)
    ∧ ((ctx.state = STATE_AAD ∨ ctx.state = STATE_CIPHER ∨ ctx.state = STATE_INVALID) →
        ∀ p, ghash_final ctx = some p → p.2.state = STATE_INVALID) := by
  refine ⟨?_, ?_, ?_, ?_, ?_, ?_, fun hreach p hp => ghash_final_state ctx p hreach hp⟩
  · by_cases h : ctx.state = STATE_AAD
    · rw [ghash_add_aad, if_pos h]
      simp [h]
    · rw [ghash_add_aad, if_neg h]
      simp [h]
  · intro c hc
    rw [ghash_add_aad] at hc
    by_cases h : ctx.state = STATE_AAD
    · rw [if_pos h] at hc
      obtain rfl := Option.some.inj hc
      rw [(ghash_add_state _ _).1]
      exact h
    · rw [if_neg h] at hc
      exact absurd hc Option.noConfusion
  · by_cases hA : ctx.state = STATE_AAD
    · rw [ghash_add_cipher, if_pos hA, if_pos rfl]
      simp [hA]
    · rw [ghash_add_cipher, if_neg hA]
      by_cases hC : ctx.state = STATE_CIPHER
      · rw [if_pos hC]
        simp [hA, hC]
      · rw [if_neg hC]
        simp [hA, hC]
  · intro c hc
    rw [ghash_add_cipher] at hc
    by_cases hA : ctx.state = STATE_AAD
    · rw [if_pos hA, if_pos rfl] at hc
      obtain rfl := Option.some.inj hc
      rw [(ghash_add_state _ _).1]
    · rw [if_neg hA] at hc
      by_cases hC : ctx.state = STATE_CIPHER
      · rw [if_pos hC] at hc
        obtain rfl := Option.some.inj hc
        rw [(ghash_add_state _ _).1]
        exact hC
      · rw [if_neg hC] at hc
        exact absurd hc Option.noConfusion
  · intro hA
    rw [ghash_add_cipher, if_pos hA, if_pos rfl]
  · intro hI
    constructor
    · have h1 : ¬ (ctx.state = STATE_AAD) := by rw [hI]; decide
      rw [ghash_add_aad, if_neg h1]
    · have h1 : ¬ (ctx.state = STATE_AAD) := by rw [hI]; decide
      have h2 : ¬ (ctx.state = STATE_CIPHER) := by rw [hI]; decide
      rw [ghash_add_cipher, if_neg h1, if_neg h2]

/-- C9: GCM tag truncation.  For 1 < ntag <= 16, the ntag-byte tag that
    cf_gcm_encrypt emits is the first ntag bytes of the 16-byte tag for the
    same inputs; concretely, the tag is the first ntag bytes of the raw
    GHASH finalize value XORed with e_Y0 = E(Y0) (counter-keystream block
    zero), while the payload keystream starts at byte offset 16, i.e. at
    counter block 1. -/
theorem claim_C9 (E : List Nat → List Nat) (fmul : Nat → Nat → Nat)
    (plain header nonce : List Nat) (ntag : Nat)
    (hn : 1 < ntag ∧ ntag ≤ 16) (hnonce : ∀ a ∈ nonce, a ≤ 255)
    (hE : (E (gcm_Y0_spec fmul (E (List.replicate 16 0)) nonce)).length = 16) :
    (cf_gcm_encrypt E fmul plain header nonce ntag).map Prod.snd
      = (cf_gcm_encrypt E fmul plain header nonce 16).map (fun p => p.2.take ntag)
    ∧ cf_gcm_encrypt E fmul plain header nonce ntag
      = some (cf_ctr_cipher E (gcm_Y0_spec fmul (E (List.replicate 16 0)) nonce) 16 plain,
          (xor_bb
            (beBytes 16 (gcm_ghash_val fmul (E (List.replicate 16 0)) header
              (cf_ctr_cipher E (gcm_Y0_spec fmul (E (List.replicate 16 0)) nonce)
                16 plain)))
            (E (gcm_Y0_spec fmul (E (List.replicate 16 0)) nonce)) 16).take ntag) := by
  obtain ⟨hy1, hy2⟩ := gcm_Y0_spec_bytes fmul (E (List.replicate 16 0)) nonce hnonce
  constructor
  · rw [cf_gcm_encrypt_eq E fmul plain header nonce ntag hn,
      cf_gcm_encrypt_eq E fmul plain header nonce 16 (by decide)]
    dsimp only [Option.map]
    rw [gcm_tag_spec, gcm_tag_spec, xor_bb_take _ _ ntag hn.2]
  · rw [cf_gcm_encrypt_eq E fmul plain header nonce ntag hn, gcm_tag_spec,
      e_Y0_eq E _ hy1 hy2 hE, xor_bb_take _ _ ntag hn.2]

theorem claim_C9_witness :
    (1 < 16 ∧ 16 ≤ 16) ∧ (∀ a ∈ ([] : List Nat), a ≤ 255) ∧
    (((fun _ => List.replicate 16 0) (gcm_Y0_spec (fun _ _ => 0)
        ((fun _ => List.replicate 16 0) (List.replicate 16 0)) []) : List Nat).length
      = 16) ∧
    ((cf_gcm_encrypt (fun _ => List.replicate 16 0) (fun _ _ => 0) [] [] [] 16).map
        Prod.snd
      = (cf_gcm_encrypt (fun _ => List.replicate 16 0) (fun _ _ => 0) [] [] [] 16).map
          (fun p => p.2.take 16)
    ∧ cf_gcm_encrypt (fun _ => List.replicate 16 0) (fun _ _ => 0) [] [] [] 16
      = some (cf_ctr_cipher (fun _ => List.replicate 16 0)
            (gcm_Y0_spec (fun _ _ => 0)
              ((fun _ => List.replicate 16 0) (List.replicate 16 0)) []) 16 [],
          (xor_bb
            (beBytes 16 (gcm_ghash_val (fun _ _ => 0)
              ((fun _ => List.replicate 16 0) (List.replicate 16 0)) []
              (cf_ctr_cipher (fun _ => List.replicate 16 0)
                (gcm_Y0_spec (fun _ _ => 0)
                  ((fun _ => List.replicate 16 0) (List.replicate 16 0)) []) 16 [])))
            ((fun _ => List.replicate 16 0) (gcm_Y0_spec (fun _ _ => 0)
              ((fun _ => List.replicate 16 0) (List.replicate 16 0)) [])) 16).take 16)) :=
  ⟨by decide, by decide, by decide,
    claim_C9 (fun _ => List.replicate 16 0) (fun _ _ => 0) [] [] [] 16 (by decide)
      (by decide) (by decide)⟩

/-- C10: poly1305_min_reduce preserves the represented value modulo
    p1305 = 2^130 - 5: for a 17-limb input whose limbs all fit the bound
    the column sums of poly1305_mul satisfy (at most 2^29, which keeps the
    internal uint32 carry accumulator from overflowing), the output limbs
    represent the same residue, the low 16 output limbs are bytes (at most
    0xff) and the high limb is at most 4 (small enough that the next
    multiply's column sums cannot overflow); the output need not be the
    canonical residue. -/
theorem claim_C10 (x : List Nat) (hlen : x.length = 17) (hb : ∀ a ∈ x, a ≤ 2 ^ 29) :
    (poly1305_min_reduce x).length = 17
    ∧ (∀ a ∈ (poly1305_min_reduce x).take 16, a ≤ 255)
    ∧ (poly1305_min_reduce x).getD 16 0 ≤ 4
    ∧ lval (poly1305_min_reduce x) % p1305 = lval x % p1305 := by
  obtain ⟨h1, h2, h3, k, hk⟩ := poly1305_min_reduce_spec x hlen hb
  refine ⟨h1, h2, h3, ?_⟩
  rw [hk, Nat.add_mul_mod_self_left]

theorem claim_C10_witness :
    (List.replicate 17 (0 : Nat)).length = 17 ∧
    (∀ a ∈ List.replicate 17 (0 : Nat), a ≤ 2 ^ 29) ∧
    ((poly1305_min_reduce (List.replicate 17 0)).length = 17
    ∧ (∀ a ∈ (poly1305_min_reduce (List.replicate 17 0)).take 16, a ≤ 255)
    ∧ (poly1305_min_reduce (List.replicate 17 0)).getD 16 0 ≤ 4
    ∧ lval (poly1305_min_reduce (List.replicate 17 0)) % p1305
        = lval (List.replicate 17 0) % p1305) :=
  ⟨by decide, by decide,
    claim_C10 (List.replicate 17 0) (by decide) (by decide)⟩
